import Mathlib

/-!
# Wallet: a shallow embedding of `wallet/wallet.go`

The wallet groups key-storage backends by their dynamic type and routes
address-scoped queries to them.  The embedding keeps the shape of the Go code:

* the map `map[reflect.Type][]Backend` is an association list with distinct keys;
  the order in which `range` visits the keys is an explicit argument `order`
  of every operation that ranges over the map;
* `sync.Mutex` is one boolean; `Lock` on a held mutex does not return and
  `Unlock` of a free mutex is a fatal runtime error;
* every operation returns its Go result, the wallet after the call and the
  sequence of mutex operations and backend calls it performed;
* the operations that take the lock are also written as runs of primitive steps
  (`Lock`, `Unlock`, a map read, a backend call), each step recording the state of
  the mutex at the moment it is taken.
-/

namespace wallet

/-! ## Data model -/

/-- Stand-in for `types.Address`, which is declared outside this package; the wallet
only passes addresses on to the backends. -/
abbrev Address := Nat

/-- Stand-in for `reflect.Type`: the dynamic type of a backend value. -/
abbrev Kind := Nat

/-- A Go byte slice `[]byte`; `none` is the nil slice. -/
abbrev Bytes := Option (List (Fin 256))

/-- Error values of the `errors` package: `errors.New` and `errors.Wrap`. -/
inductive GoError where
  | new (msg : String)
  | wrap (cause : GoError) (msg : String)
  deriving DecidableEq, Repr

namespace GoError

/-- Function `errors.Cause`: the innermost error of a chain of wraps. -/
def Cause : GoError → GoError
  | new msg => new msg
  | wrap cause _ => Cause cause

end GoError

/-- Function `errors.Wrap(err, message)`: nil stays nil, any other error is annotated. -/
def errorsWrap (err : Option GoError) (message : String) : Option GoError :=
  match err with
  | none => none
  | some e => some (GoError.wrap e message)

/-- Line 14: `ErrUnknownAddress = errors.New("unknown address")`. -/
def ErrUnknownAddress : GoError := GoError.new "unknown address"

/-- A non-nil value of the interface `Backend` (declared outside `wallet.go`): its dynamic
type as seen by `reflect.TypeOf`, and the three methods the wallet calls, observed at the
time of the call. -/
structure Backend where
  kind : Kind
  HasAddress : Address → Bool
  Addresses : List Address
  Sign : Address → Bytes → Bytes × Option GoError

/-- What an operation does besides computing its result: mutex operations and calls
into backends, in program order. -/
inductive Event where
  | lock
  | unlock
  | hasAddress (b : Backend) (addr : Address)
  | addresses (b : Backend)
  | sign (b : Backend) (addr : Address) (data : Bytes)

/-- True exactly on the events that are a call of some backend's `Sign`. -/
def Event.isSign : Event → Bool
  | Event.sign _ _ _ => true
  | _ => false

/-- The Go map `map[reflect.Type][]Backend`: entries with pairwise distinct keys. -/
structure GoMap where
  entries : List (Kind × List Backend)

namespace GoMap

/-- Search of the entries behind `m[k]`. -/
def getAux (k : Kind) : List (Kind × List Backend) → List Backend
  | [] => []
  | (k', v) :: rest => if k' = k then v else getAux k rest

/-- Map read `m[k]`; a missing key reads as the zero value, the nil slice. -/
def get (m : GoMap) (k : Kind) : List Backend := getAux k m.entries

/-- Update of the entries behind `m[k] = v`. -/
def setAux (k : Kind) (v : List Backend) : List (Kind × List Backend) → List (Kind × List Backend)
  | [] => [(k, v)]
  | (k', v') :: rest => if k' = k then (k, v) :: rest else (k', v') :: setAux k v rest

/-- Map write `m[k] = v`: replaces the entry of `k`, or adds one. -/
def set (m : GoMap) (k : Kind) (v : List Backend) : GoMap := ⟨setAux k v m.entries⟩

/-- The keys present in the map. -/
def keys (m : GoMap) : List Kind := m.entries.map Prod.fst

end GoMap

/-- Lines 18-22: the mutex `lk` (true while held) and the map `backends`. -/
structure Wallet where
  lk : Bool
  backends : GoMap

/-- Outcome of running an operation on a wallet: it returns `val`, leaving the wallet `w`
after performing `log`; or it blocks forever on the mutex; or the runtime aborts. -/
inductive Exec (α : Type) where
  | done (val : α) (w : Wallet) (log : List Event)
  | blocked
  | fatal

namespace Wallet

/-- Method `sync.Mutex.Lock`: acquires a free mutex, never returns on a held one. -/
def Lock (w : Wallet) : Option Wallet :=
  if w.lk then none else some { w with lk := true }

/-- Method `sync.Mutex.Unlock`: releases a held mutex; on a free one it is a fatal error. -/
def Unlock (w : Wallet) : Option Wallet :=
  if w.lk then some { w with lk := false } else none

end Wallet

/-! ## Operations -/

/-- Lines 29-32, the loop of `New` run on the map `backendsMap`: each backend is appended
to the slice stored under its dynamic type. -/
def buildFrom (backendsMap : GoMap) (backends : List Backend) : GoMap :=
  backends.foldl
    (fun m backend => m.set backend.kind (m.get backend.kind ++ [backend]))
    backendsMap

/-- Lines 26-37, `New`: the loop started from the empty map; the mutex is the zero value,
a free one. -/
def New (backends : List Backend) : Wallet :=
  { lk := false
    backends := buildFrom ⟨[]⟩ backends }

/-- Lines 54-58, the inner loop of `Find`: the first backend of one group that answers
true, with the calls made up to that point. -/
def findInGroup (addr : Address) : List Backend → Option Backend × List Event
  | [] => (none, [])
  | backend :: rest =>
    if backend.HasAddress addr then
      (some backend, [Event.hasAddress backend addr])
    else
      let r := findInGroup addr rest
      (r.1, Event.hasAddress backend addr :: r.2)

/-- Lines 53-59, the outer loop of `Find` over the groups, visited in `order`. -/
def findInGroups (m : GoMap) (addr : Address) : List Kind → Option Backend × List Event
  | [] => (none, [])
  | k :: ks =>
    match findInGroup addr (m.get k) with
    | (some backend, evs) => (some backend, evs)
    | (none, evs) =>
      let r := findInGroups m addr ks
      (r.1, evs ++ r.2)

/-- Lines 56 and 61, the two return statements of `Find`: the backend found with a nil
error, or a nil backend with `ErrUnknownAddress`. -/
def findReturn : Option Backend → Option Backend × Option GoError
  | some backend => (some backend, none)
  | none => (none, some ErrUnknownAddress)

/-- Lines 49-62, `Wallet.Find`. -/
def Wallet.Find (w : Wallet) (order : List Kind) (addr : Address) :
    Exec (Option Backend × Option GoError) :=
  match w.Lock with
  | none => Exec.blocked
  | some w1 =>
    let r := findInGroups w1.backends addr order
    match w1.Unlock with
    | none => Exec.fatal
    | some w2 => Exec.done (findReturn r.1) w2 (Event.lock :: r.2 ++ [Event.unlock])

/-- Lines 41-44, `Wallet.HasAddress`. -/
def Wallet.HasAddress (w : Wallet) (order : List Kind) (a : Address) : Exec Bool :=
  match w.Find order a with
  | Exec.done (_, err) w1 log => Exec.done (err == none) w1 log
  | Exec.blocked => Exec.blocked
  | Exec.fatal => Exec.fatal

/-- Lines 76-78, the inner loop of `Addresses`. -/
def appendGroup (acc : List Address × List Event) (backends : List Backend) :
    List Address × List Event :=
  backends.foldl
    (fun out backend => (out.1 ++ backend.Addresses, out.2 ++ [Event.addresses backend]))
    acc

/-- Lines 70-82, `Wallet.Addresses`. -/
def Wallet.Addresses (w : Wallet) (order : List Kind) : Exec (List Address) :=
  match w.Lock with
  | none => Exec.blocked
  | some w1 =>
    let r := order.foldl (fun out k => appendGroup out (w1.backends.get k)) ([], [])
    match w1.Unlock with
    | none => Exec.fatal
    | some w2 => Exec.done r.1 w2 (Event.lock :: r.2 ++ [Event.unlock])

/-- Builtin `make([]Backend, n)`: `n` cells holding the nil interface. -/
def goMake (n : Nat) : List (Option Backend) := List.replicate n none

/-- Builtin `copy(dst, src)`: overwrites the first `min(len(dst), len(src))` cells. -/
def goCopy (dst : List (Option Backend)) (src : List Backend) : List (Option Backend) :=
  (src.take dst.length).map some ++ dst.drop src.length

/-- Lines 85-92, `Wallet.Backends`. -/
def Wallet.Backends (w : Wallet) (kind : Kind) : Exec (List (Option Backend)) :=
  match w.Lock with
  | none => Exec.blocked
  | some w1 =>
    let cpy := goCopy (goMake (w1.backends.get kind).length) (w1.backends.get kind)
    match w1.Unlock with
    | none => Exec.fatal
    | some w2 => Exec.done cpy w2 [Event.lock, Event.unlock]

/-- Lines 95-102, `Wallet.Sign`. -/
def Wallet.Sign (w : Wallet) (order : List Kind) (addr : Address) (data : Bytes) :
    Exec (Bytes × Option GoError) :=
  match w.Find order addr with
  | Exec.blocked => Exec.blocked
  | Exec.fatal => Exec.fatal
  | Exec.done (backend, err) w1 log =>
    match err with
    | some e => Exec.done (none, errorsWrap (some e) "failed to sign data") w1 log
    | none =>
      match backend with
      | some b => Exec.done (b.Sign addr data) w1 (log ++ [Event.sign b addr data])
      | none => Exec.fatal

/-- Lines 106-108, `Wallet.Verify`: returns what the package function `verify` returns.
That function is declared outside `wallet.go` and is the parameter `verify` here.  The
method takes no lock and makes no backend call. -/
def Wallet.Verify (verify : Bytes → Bytes → Bytes → Bool × Option GoError) (w : Wallet)
    (pk data sig : Bytes) : Exec (Bool × Option GoError) :=
  Exec.done (verify pk data sig) w []

/-- Lines 114-116, `Wallet.Ecrecover`: returns what the package function `ecrecover`
returns.  That function is declared outside `wallet.go` and is the parameter `ecrecover`
here.  The method takes no lock and makes no backend call. -/
def Wallet.Ecrecover (ecrecover : Bytes → Bytes → Bytes × Option GoError) (w : Wallet)
    (data sig : Bytes) : Exec (Bytes × Option GoError) :=
  Exec.done (ecrecover data sig) w []

/-! ## Reading a log against the mutex -/

/-- True exactly on the events that are a call into a backend. -/
def Event.isBackendCall : Event → Bool
  | Event.lock => false
  | Event.unlock => false
  | Event.hasAddress _ _ => true
  | Event.addresses _ => true
  | Event.sign _ _ _ => true

/-- The mutex after the events of a log, started with the mutex held or free as `held`
says; `none` when the log locks a mutex that is held or unlocks one that is free. -/
def replayMutex (held : Bool) : List Event → Option Bool
  | [] => some held
  | Event.lock :: rest => if held then none else replayMutex true rest
  | Event.unlock :: rest => if held then replayMutex false rest else none
  | Event.hasAddress _ _ :: rest => replayMutex held rest
  | Event.addresses _ :: rest => replayMutex held rest
  | Event.sign _ _ _ :: rest => replayMutex held rest

/-- The backend calls of a log, in order, each with the state of the mutex at the moment
of the call. -/
def mutexAtCalls (held : Bool) : List Event → List (Event × Bool)
  | [] => []
  | Event.lock :: rest => mutexAtCalls true rest
  | Event.unlock :: rest => mutexAtCalls false rest
  | Event.hasAddress b addr :: rest =>
    (Event.hasAddress b addr, held) :: mutexAtCalls held rest
  | Event.addresses b :: rest => (Event.addresses b, held) :: mutexAtCalls held rest
  | Event.sign b addr data :: rest =>
    (Event.sign b addr data, held) :: mutexAtCalls held rest

/-! ## Runs: the mutex and the backends as primitive steps

The operations that take the lock, written once more as sequences of primitive steps on a
state that carries the wallet and a trace.  No operation writes the trace itself: a
primitive step appends its own event, paired with the state of the mutex at the moment
the step is taken. -/

/-- A primitive step of a run: a mutex operation or a backend call, which the logs of the
operations also record, or a read of the map `w.backends` at a key. -/
inductive Step where
  | event (e : Event)
  | readMap (k : Kind)

/-- True exactly on the steps `Lock` and `Unlock`. -/
def Step.isMutexOp : Step → Bool
  | Step.event Event.lock => true
  | Step.event Event.unlock => true
  | _ => false

/-- The state of a run: the wallet, and the steps taken so far, each with the state of
the mutex (true when held) at the moment it was taken. -/
structure RunState where
  w : Wallet
  trace : List (Step × Bool)

/-- The mutex operations and backend calls of a trace, in order: what the log of an
operation records. -/
def eventsOf : List (Step × Bool) → List Event
  | [] => []
  | (Step.event e, _) :: rest => e :: eventsOf rest
  | (Step.readMap _, _) :: rest => eventsOf rest

/-- Where a run stands after some steps: it has produced `val` in state `s`, or it waits
forever for the mutex, or the runtime has aborted it. -/
inductive Outcome (α : Type) where
  | ok (val : α) (s : RunState)
  | blocked
  | fatal

/-- A piece of program: from a state to an outcome. -/
def Run (α : Type) : Type := RunState → Outcome α

namespace Run

/-- A piece of program that takes no step. -/
def pure {α : Type} (a : α) : Run α := fun s => Outcome.ok a s

/-- Sequencing: `f` runs on the result and in the state that `x` leaves; a run that is
blocked or aborted goes no further. -/
def bind {α β : Type} (x : Run α) (f : α → Run β) : Run β := fun s =>
  match x s with
  | Outcome.ok a s1 => f a s1
  | Outcome.blocked => Outcome.blocked
  | Outcome.fatal => Outcome.fatal

end Run

instance : Monad Run where
  pure := Run.pure
  bind := Run.bind

/-- Step `w.lk.Lock()`: on a free mutex, takes it; on a held mutex, never returns. -/
def mutexLock : Run Unit := fun s =>
  match s.w.Lock with
  | none => Outcome.blocked
  | some w1 => Outcome.ok () ⟨w1, s.trace ++ [(Step.event Event.lock, s.w.lk)]⟩

/-- Step `w.lk.Unlock()`: releases a held mutex; on a free mutex the runtime aborts. -/
def mutexUnlock : Run Unit := fun s =>
  match s.w.Unlock with
  | none => Outcome.fatal
  | some w1 => Outcome.ok () ⟨w1, s.trace ++ [(Step.event Event.unlock, s.w.lk)]⟩

/-- Step `backend.HasAddress(addr)`. -/
def callHasAddress (backend : Backend) (addr : Address) : Run Bool := fun s =>
  Outcome.ok (backend.HasAddress addr)
    ⟨s.w, s.trace ++ [(Step.event (Event.hasAddress backend addr), s.w.lk)]⟩

/-- Step `backend.Addresses()`. -/
def callAddresses (backend : Backend) : Run (List Address) := fun s =>
  Outcome.ok backend.Addresses ⟨s.w, s.trace ++ [(Step.event (Event.addresses backend), s.w.lk)]⟩

/-- Step `w.backends[k]`: a read of the map of the wallet, also the read of one entry by
a `range` over the map. -/
def readGroup (k : Kind) : Run (List Backend) := fun s =>
  Outcome.ok (s.w.backends.get k) ⟨s.w, s.trace ++ [(Step.readMap k, s.w.lk)]⟩

/-- Lines 54-58, the inner loop of `Find`. -/
def runFindInGroup (addr : Address) : List Backend → Run (Option Backend)
  | [] => pure none
  | backend :: rest => do
    if (← callHasAddress backend addr) then
      pure (some backend)
    else
      runFindInGroup addr rest

/-- Lines 53-59, the outer loop of `Find` over the groups, visited in `order`. -/
def runFindInGroups (addr : Address) : List Kind → Run (Option Backend)
  | [] => pure none
  | k :: ks => do
    let backends ← readGroup k
    match (← runFindInGroup addr backends) with
    | some backend => pure (some backend)
    | none => runFindInGroups addr ks

/-- Lines 49-62, `Wallet.Find`, step by step: `Lock`, the loops, and the deferred
`Unlock` once the values to return are fixed. -/
def runFind (order : List Kind) (addr : Address) :
    Run (Option Backend × Option GoError) := do
  mutexLock
  let found ← runFindInGroups addr order
  mutexUnlock
  pure (findReturn found)

/-- Lines 76-78, the inner loop of `Addresses`. -/
def runAppendGroup (out : List Address) : List Backend → Run (List Address)
  | [] => pure out
  | backend :: rest => do
    let addrs ← callAddresses backend
    runAppendGroup (out ++ addrs) rest

/-- Lines 75-79, the outer loop of `Addresses`. -/
def runAppendGroups (out : List Address) : List Kind → Run (List Address)
  | [] => pure out
  | k :: ks => do
    let backends ← readGroup k
    let out1 ← runAppendGroup out backends
    runAppendGroups out1 ks

/-- Lines 70-82, `Wallet.Addresses`, step by step. -/
def runAddresses (order : List Kind) : Run (List Address) := do
  mutexLock
  let out ← runAppendGroups [] order
  mutexUnlock
  pure out

/-- Lines 85-92, `Wallet.Backends`, step by step: the map is read once for `len` and
once for `copy`. -/
def runBackends (kind : Kind) : Run (List (Option Backend)) := do
  mutexLock
  let cpy := goMake (← readGroup kind).length
  let cpy1 := goCopy cpy (← readGroup kind)
  mutexUnlock
  pure cpy1

/-- The backends in the order in which `Find` and `Addresses` visit them: the groups in
the iteration order of the map, each group front to back. -/
def Wallet.scanOrder (w : Wallet) (order : List Kind) : List Backend :=
  order.flatMap (fun k => w.backends.get k)

/-! ## Slices in memory

`Backends` hands a freshly allocated slice to its caller.  To follow what the caller can
reach through it, the groups of the map are here slice headers into a store of backing
arrays, as in Go. -/

/-- The backing arrays of the `[]Backend` slices, by allocation index; a cell holds an
interface value, `none` being the nil interface. -/
structure Heap where
  arrays : List (List (Option Backend))

/-- A slice header: the backing array it points into (from its first cell) and its
length; its capacity is the length of the backing array. -/
structure Slice where
  arr : Nat
  len : Nat

/-- The nil slice, which a map read returns for a missing key. -/
def nilSlice : Slice := ⟨0, 0⟩

namespace Heap

/-- The cells of the backing array `i`. -/
def array (h : Heap) (i : Nat) : List (Option Backend) := h.arrays.getD i []

/-- The elements seen through the slice `s`. -/
def read (h : Heap) (s : Slice) : List (Option Backend) := (h.array s.arr).take s.len

/-- Builtin `make([]Backend, n)`: a new backing array of `n` nil cells and a slice over
all of it. -/
def make (h : Heap) (n : Nat) : Heap × Slice :=
  (⟨h.arrays ++ [List.replicate n none]⟩, ⟨h.arrays.length, n⟩)

/-- Builtin `copy(dst, src)`: the first `min(len(dst), len(src))` cells of `dst` take
the elements of `src`. -/
def copy (h : Heap) (dst src : Slice) : Heap :=
  ⟨h.arrays.set dst.arr
    ((h.read src).take (min dst.len src.len) ++ (h.array dst.arr).drop (min dst.len src.len))⟩

/-- The assignment `s[i] = v`, for an index within the length of `s`. -/
def write (h : Heap) (s : Slice) (i : Nat) (v : Option Backend) : Heap :=
  ⟨h.arrays.set s.arr ((h.array s.arr).set i v)⟩

end Heap

/-- The wallet with its groups as slice headers. -/
structure MemWallet where
  lk : Bool
  backends : List (Kind × Slice)

namespace MemWallet

/-- Search of the entries behind `w.backends[k]`. -/
def getAux (k : Kind) : List (Kind × Slice) → Slice
  | [] => nilSlice
  | (k', v) :: rest => if k' = k then v else getAux k rest

/-- Map read `w.backends[k]`. -/
def get (w : MemWallet) (k : Kind) : Slice := getAux k w.backends

/-- Lines 85-92, `Wallet.Backends`, on slices in memory: with the mutex free, `make`
allocates the copy and `copy` fills it from the stored slice; the deferred `Unlock`
leaves the mutex free again and the map is only read.  On a held mutex the call never
returns. -/
def Backends (w : MemWallet) (h : Heap) (kind : Kind) : Option (Slice × Heap) :=
  if w.lk then none
  else
    let made := h.make (w.get kind).len
    some (made.2, made.1.copy made.2 (w.get kind))

/-- The wallet that the operations on values see: each group read through its slice
header. -/
def view (w : MemWallet) (h : Heap) : Wallet :=
  { lk := w.lk
    backends := ⟨w.backends.map (fun e => (e.1, (h.read e.2).reduceOption))⟩ }

end MemWallet

/-- What a caller can do to the elements of a slice it holds: overwrite a cell, exchange
two cells, or re-slice to the first `n` cells. -/
inductive Mutation where
  | store (i : Nat) (v : Option Backend)
  | swap (i j : Nat)
  | truncate (n : Nat)

/-- One mutation through the slice `st.2`, on the memory `st.1`.  An index or a bound out
of range is a runtime error of the caller and changes nothing. -/
def Mutation.apply (st : Heap × Slice) : Mutation → Heap × Slice
  | Mutation.store i v =>
    if i < st.2.len then (st.1.write st.2 i v, st.2) else st
  | Mutation.swap i j =>
    if i < st.2.len ∧ j < st.2.len then
      ((st.1.write st.2 i ((st.1.read st.2).getD j none)).write st.2 j
        ((st.1.read st.2).getD i none), st.2)
    else st
  | Mutation.truncate n =>
    if n ≤ (st.1.array st.2.arr).length then (st.1, ⟨st.2.arr, n⟩) else st

/-- A caller's sequence of mutations through the slice it was given. -/
def mutate (ms : List Mutation) (st : Heap × Slice) : Heap × Slice :=
  ms.foldl Mutation.apply st

/-- A backend of dynamic type `kind` that holds exactly the addresses `addrs` and answers
every signing request with `sig`. -/
def listBackend (kind : Kind) (addrs : List Address) (sig : Bytes × Option GoError) :
    Backend :=
  { kind := kind
    HasAddress := fun a => decide (a ∈ addrs)
    Addresses := addrs
    Sign := fun _ _ => sig }

/-- A backend of dynamic type `kind` that lists the addresses `addrs` but answers false
to every `HasAddress` query. -/
def denyingBackend (kind : Kind) (addrs : List Address) : Backend :=
  { kind := kind
    HasAddress := fun _ => false
    Addresses := addrs
    Sign := fun _ _ => (none, some (GoError.new "no key")) }

/-! ## The map built by `New` -/

theorem getAux_setAux (k k' : Kind) (v : List Backend) (es : List (Kind × List Backend)) :
    GoMap.getAux k (GoMap.setAux k' v es) = if k' = k then v else GoMap.getAux k es := by
  induction es with
  | nil => simp [GoMap.setAux, GoMap.getAux]
  | cons e rest ih =>
    obtain ⟨k0, v0⟩ := e
    by_cases h0 : k0 = k' <;> by_cases h1 : k' = k <;> by_cases h2 : k0 = k <;>
      simp_all [GoMap.setAux, GoMap.getAux]

theorem keys_setAux (k : Kind) (v : List Backend) (es : List (Kind × List Backend)) :
    (GoMap.setAux k v es).map Prod.fst =
      if k ∈ es.map Prod.fst then es.map Prod.fst else es.map Prod.fst ++ [k] := by
  induction es with
  | nil => simp [GoMap.setAux]
  | cons e rest ih =>
    obtain ⟨k0, v0⟩ := e
    by_cases h0 : k0 = k
    · simp [GoMap.setAux, h0]
    · have h0' : ¬ k = k0 := fun h => h0 h.symm
      by_cases hm : k ∈ rest.map Prod.fst
      · simp [GoMap.setAux, h0, h0', ih, hm]
      · simp [GoMap.setAux, h0, h0', ih, hm]

theorem buildFrom_get (bs : List Backend) (m : GoMap) (k : Kind) :
    (buildFrom m bs).get k = m.get k ++ bs.filter (fun b => decide (b.kind = k)) := by
  induction bs generalizing m with
  | nil => simp [buildFrom]
  | cons b rest ih =>
    have step : buildFrom m (b :: rest)
        = buildFrom (m.set b.kind (m.get b.kind ++ [b])) rest := rfl
    rw [step, ih]
    by_cases hk : b.kind = k
    · subst hk
      simp [GoMap.get, GoMap.set, getAux_setAux]
    · simp [GoMap.get, GoMap.set, getAux_setAux, hk]

theorem buildFrom_keys_nodup (bs : List Backend) (m : GoMap) (h : m.keys.Nodup) :
    (buildFrom m bs).keys.Nodup := by
  induction bs generalizing m with
  | nil => simpa [buildFrom] using h
  | cons b rest ih =>
    have step : buildFrom m (b :: rest)
        = buildFrom (m.set b.kind (m.get b.kind ++ [b])) rest := rfl
    rw [step]
    apply ih
    unfold GoMap.keys at h ⊢
    simp only [GoMap.set]
    rw [keys_setAux]
    split
    · exact h
    · rename_i hm
      exact List.Nodup.append h (List.nodup_singleton _) (by simpa using hm)

theorem buildFrom_mem_keys (bs : List Backend) (m : GoMap) (k : Kind) :
    k ∈ (buildFrom m bs).keys ↔ k ∈ m.keys ∨ ∃ b ∈ bs, b.kind = k := by
  induction bs generalizing m with
  | nil => simp [buildFrom]
  | cons b rest ih =>
    have step : buildFrom m (b :: rest)
        = buildFrom (m.set b.kind (m.get b.kind ++ [b])) rest := rfl
    rw [step, ih]
    have hk : k ∈ (m.set b.kind (m.get b.kind ++ [b])).keys ↔ k ∈ m.keys ∨ b.kind = k := by
      unfold GoMap.keys
      simp only [GoMap.set]
      rw [keys_setAux]
      split
      · rename_i hm
        constructor
        · intro h; exact Or.inl h
        · rintro (h | h)
          · exact h
          · exact h ▸ hm
      · simp [eq_comm]
    rw [hk]
    simp only [List.mem_cons, exists_eq_or_imp]
    tauto

/-- Each group of `New bs` is the subsequence of `bs` of that dynamic type. -/
theorem New_get (bs : List Backend) (k : Kind) :
    (New bs).backends.get k = bs.filter (fun b => decide (b.kind = k)) := by
  show (buildFrom ⟨[]⟩ bs).get k = _
  rw [buildFrom_get]
  simp [GoMap.get, GoMap.getAux]

theorem New_keys_nodup (bs : List Backend) : (New bs).backends.keys.Nodup := by
  exact buildFrom_keys_nodup bs ⟨[]⟩ (by simp [GoMap.keys])

theorem New_mem_keys (bs : List Backend) (k : Kind) :
    k ∈ (New bs).backends.keys ↔ ∃ b ∈ bs, b.kind = k := by
  show k ∈ (buildFrom ⟨[]⟩ bs).keys ↔ _
  rw [buildFrom_mem_keys]
  simp [GoMap.keys]

/-! ## The scan of `Find` -/

theorem findInGroup_fst (a : Address) (g : List Backend) :
    (findInGroup a g).1 = g.find? (fun b => b.HasAddress a) := by
  induction g with
  | nil => rfl
  | cons b rest ih =>
    by_cases hb : b.HasAddress a = true
    · simp [findInGroup, hb]
    · simp [findInGroup, hb, ih]

theorem findInGroups_fst (m : GoMap) (a : Address) (order : List Kind) :
    (findInGroups m a order).1 =
      (order.flatMap (fun k => m.get k)).find? (fun b => b.HasAddress a) := by
  induction order with
  | nil => rfl
  | cons k ks ih =>
    have hg := findInGroup_fst a (m.get k)
    rw [List.flatMap_cons, List.find?_append, ← hg, ← ih, findInGroups]
    rcases hfg : findInGroup a (m.get k) with ⟨_ | b, evs⟩ <;> simp

theorem findInGroup_log_noSign (a : Address) (g : List Backend) :
    ∀ e ∈ (findInGroup a g).2, e.isSign = false := by
  induction g with
  | nil => simp [findInGroup]
  | cons b rest ih =>
    by_cases hb : b.HasAddress a = true
    · simp [findInGroup, hb, Event.isSign]
    · intro e he
      simp only [findInGroup, hb, Bool.false_eq_true, if_false, List.mem_cons] at he
      rcases he with rfl | he
      · rfl
      · exact ih e he

theorem findInGroups_log_noSign (m : GoMap) (a : Address) (order : List Kind) :
    ∀ e ∈ (findInGroups m a order).2, e.isSign = false := by
  induction order with
  | nil => simp [findInGroups]
  | cons k ks ih =>
    have hg := findInGroup_log_noSign a (m.get k)
    rw [findInGroups]
    rcases hfg : findInGroup a (m.get k) with ⟨_ | b, evs⟩
    · rw [hfg] at hg
      intro e he
      simp only [List.mem_append] at he
      rcases he with he | he
      · exact hg e he
      · exact ih e he
    · rw [hfg] at hg
      exact hg

theorem lock_unlock_free (w : Wallet) (h : w.lk = false) :
    w.Lock = some { w with lk := true } ∧
      Wallet.Unlock { w with lk := true } = some w := by
  obtain ⟨lk, m⟩ := w
  simp only at h
  subst h
  exact ⟨rfl, rfl⟩

/-- On a wallet whose mutex is free, `Find` returns the first backend of the scan order
that answers true, and leaves the wallet as it found it. -/
theorem Find_free (w : Wallet) (h : w.lk = false) (order : List Kind) (a : Address) :
    w.Find order a =
      Exec.done (findReturn ((w.scanOrder order).find? (fun b => b.HasAddress a))) w
        (Event.lock :: (findInGroups w.backends a order).2 ++ [Event.unlock]) := by
  obtain ⟨h1, h2⟩ := lock_unlock_free w h
  unfold Wallet.Find
  rw [h1]
  simp only [h2, findInGroups_fst, Wallet.scanOrder]

theorem Find_held (w : Wallet) (h : w.lk = true) (order : List Kind) (a : Address) :
    w.Find order a = Exec.blocked := by
  simp [Wallet.Find, Wallet.Lock, h]

/-! ## Scan order and registration order -/

theorem filter_kind_of_ne (bs : List Backend) (k k' : Kind) (h : k' ≠ k) :
    (bs.filter (fun b => !decide (b.kind = k))).filter (fun b => decide (b.kind = k'))
      = bs.filter (fun b => decide (b.kind = k')) := by
  rw [List.filter_filter]
  apply List.filter_congr
  intro b _
  by_cases hb : b.kind = k' <;> simp [hb, h]

/-- Visiting the groups of `bs` by kind, over distinct kinds that cover `bs`, visits
every element of `bs` exactly once. -/
theorem flatMap_filter_kind_perm (ks : List Kind) (bs : List Backend) (hnd : ks.Nodup)
    (hcov : ∀ b ∈ bs, b.kind ∈ ks) :
    (ks.flatMap (fun k => bs.filter (fun b => decide (b.kind = k)))).Perm bs := by
  induction ks generalizing bs with
  | nil =>
    cases bs with
    | nil => simp
    | cons b rest => exact absurd (hcov b (List.mem_cons_self _ _)) (List.not_mem_nil _)
  | cons k ks ih =>
    have hk : k ∉ ks := (List.nodup_cons.mp hnd).1
    have hnd' : ks.Nodup := (List.nodup_cons.mp hnd).2
    have hrest : ks.flatMap (fun k' => bs.filter (fun b => decide (b.kind = k')))
        = ks.flatMap (fun k' =>
            (bs.filter (fun b => !decide (b.kind = k))).filter
              (fun b => decide (b.kind = k'))) := by
      apply List.flatMap_congr
      intro k' hk'
      exact (filter_kind_of_ne bs k k' (fun e => hk (e ▸ hk'))).symm
    have hcov' : ∀ b ∈ bs.filter (fun b => !decide (b.kind = k)), b.kind ∈ ks := by
      intro b hb
      have hb' := List.mem_filter.mp hb
      have hne : b.kind ≠ k := by simpa using hb'.2
      rcases List.mem_cons.mp (hcov b hb'.1) with e | hmem
      · exact absurd e hne
      · exact hmem
    rw [List.flatMap_cons, hrest]
    exact ((ih _ hnd' hcov').append_left _).trans
      (List.filter_append_perm (fun b => decide (b.kind = k)) bs)

/-- Whatever the iteration order of the map, the scan of `New bs` visits every element
of `bs` exactly once. -/
theorem scanOrder_New_perm (bs : List Backend) (order : List Kind)
    (h : order.Perm (New bs).backends.keys) : ((New bs).scanOrder order).Perm bs := by
  have hfun : (fun k => (New bs).backends.get k)
      = (fun k => bs.filter (fun b => decide (b.kind = k))) := by
    funext k
    exact New_get bs k
  unfold Wallet.scanOrder
  rw [hfun]
  apply flatMap_filter_kind_perm
  · exact (List.Perm.nodup_iff h).mpr (New_keys_nodup bs)
  · intro b hb
    exact (List.Perm.mem_iff h).mpr ((New_mem_keys bs b.kind).mpr ⟨b, hb, rfl⟩)

theorem findReturn_snd_eq_none (x : Option Backend) :
    (findReturn x).2 = none ↔ x.isSome = true := by
  cases x <;> simp [findReturn]

theorem find_New_isSome (bs : List Backend) (order : List Kind) (a : Address)
    (h : order.Perm (New bs).backends.keys) :
    (((New bs).scanOrder order).find? (fun b => b.HasAddress a)).isSome = true ↔
      ∃ b ∈ bs, b.HasAddress a = true := by
  rw [List.find?_isSome]
  constructor
  · rintro ⟨b, hb, hp⟩
    exact ⟨b, (List.Perm.mem_iff (scanOrder_New_perm bs order h)).mp hb, hp⟩
  · rintro ⟨b, hb, hp⟩
    exact ⟨b, (List.Perm.mem_iff (scanOrder_New_perm bs order h)).mpr hb, hp⟩

/-- On a wallet whose mutex is free, `HasAddress` returns whether the error of `Find`
is nil. -/
theorem HasAddress_free (w : Wallet) (h : w.lk = false) (order : List Kind) (a : Address) :
    w.HasAddress order a =
      Exec.done
        ((findReturn ((w.scanOrder order).find? (fun b => b.HasAddress a))).2 == none) w
        (Event.lock :: (findInGroups w.backends a order).2 ++ [Event.unlock]) := by
  unfold Wallet.HasAddress
  rw [Find_free w h order a]

/-- On a wallet whose mutex is free, `Sign` forwards to the backend that the scan
finds first, or wraps `ErrUnknownAddress` when the scan finds none. -/
theorem Sign_free (w : Wallet) (h : w.lk = false) (order : List Kind) (a : Address)
    (data : Bytes) :
    w.Sign order a data =
      match (w.scanOrder order).find? (fun b => b.HasAddress a) with
      | some b =>
        Exec.done (b.Sign a data) w
          ((Event.lock :: (findInGroups w.backends a order).2 ++ [Event.unlock])
            ++ [Event.sign b a data])
      | none =>
        Exec.done (none, some (GoError.wrap ErrUnknownAddress "failed to sign data")) w
          (Event.lock :: (findInGroups w.backends a order).2 ++ [Event.unlock]) := by
  unfold Wallet.Sign
  rw [Find_free w h order a]
  cases (w.scanOrder order).find? (fun b => b.HasAddress a) <;> rfl

theorem Find_log_noSign (w : Wallet) (order : List Kind) (a : Address) :
    ∀ e ∈ Event.lock :: (findInGroups w.backends a order).2 ++ [Event.unlock],
      e.isSign = false := by
  intro e he
  simp only [List.cons_append, List.mem_cons, List.mem_append, List.mem_singleton,
    List.not_mem_nil, or_false] at he
  rcases he with rfl | he | rfl
  · rfl
  · exact findInGroups_log_noSign w.backends a order e he
  · rfl

theorem find_holds {l : List Backend} {a : Address} {b : Backend}
    (h : l.find? (fun b => b.HasAddress a) = some b) : b.HasAddress a = true := by
  have := List.find?_some h
  simpa using this

theorem mem_scanOrder (w : Wallet) (order : List Kind) (b : Backend) :
    b ∈ w.scanOrder order ↔ ∃ k ∈ order, b ∈ w.backends.get k := by
  simp [Wallet.scanOrder, List.mem_flatMap]

/-! ## Aggregation and per-kind retrieval -/

theorem appendGroup_eq (acc : List Address × List Event) (g : List Backend) :
    appendGroup acc g =
      (acc.1 ++ g.flatMap (fun b => b.Addresses), acc.2 ++ g.map Event.addresses) := by
  unfold appendGroup
  induction g generalizing acc with
  | nil => simp
  | cons b rest ih => simp [List.foldl_cons, ih, List.append_assoc]

theorem appendGroups_eq (m : GoMap) (order : List Kind) (acc : List Address × List Event) :
    order.foldl (fun out k => appendGroup out (m.get k)) acc =
      (acc.1 ++ (order.flatMap (fun k => m.get k)).flatMap (fun b => b.Addresses),
        acc.2 ++ (order.flatMap (fun k => m.get k)).map Event.addresses) := by
  induction order generalizing acc with
  | nil => simp
  | cons k ks ih =>
    rw [List.foldl_cons, ih, appendGroup_eq]
    simp [List.append_assoc]

/-- On a wallet whose mutex is free, `Addresses` returns the address lists of the
backends concatenated in scan order. -/
theorem Addresses_free (w : Wallet) (h : w.lk = false) (order : List Kind) :
    w.Addresses order =
      Exec.done ((w.scanOrder order).flatMap (fun b => b.Addresses)) w
        (Event.lock :: (w.scanOrder order).map Event.addresses ++ [Event.unlock]) := by
  obtain ⟨h1, h2⟩ := lock_unlock_free w h
  unfold Wallet.Addresses
  rw [h1]
  simp only [h2, appendGroups_eq, Wallet.scanOrder, List.nil_append]

theorem goCopy_goMake (src : List Backend) :
    goCopy (goMake src.length) src = src.map some := by
  simp [goCopy, goMake]

/-- On a wallet whose mutex is free, `Backends` returns a copy of the group of `kind`. -/
theorem Backends_free (w : Wallet) (h : w.lk = false) (kind : Kind) :
    w.Backends kind =
      Exec.done ((w.backends.get kind).map some) w [Event.lock, Event.unlock] := by
  obtain ⟨h1, h2⟩ := lock_unlock_free w h
  unfold Wallet.Backends
  rw [h1]
  simp only [h2, goCopy_goMake]

theorem coe_flatMap_Addresses (bs : List Backend) :
    ((bs.flatMap (fun b => b.Addresses) : List Address) : Multiset Address) =
      (bs.map (fun b => (b.Addresses : Multiset Address))).sum := by
  induction bs with
  | nil => rfl
  | cons b rest ih =>
    rw [List.flatMap_cons, ← Multiset.coe_add, ih, List.map_cons, List.sum_cons]

theorem length_flatMap_Addresses (bs : List Backend) :
    (bs.flatMap (fun b => b.Addresses)).length = (bs.map (fun b => b.Addresses.length)).sum := by
  induction bs with
  | nil => rfl
  | cons b rest ih =>
    rw [List.flatMap_cons, List.length_append, ih, List.map_cons, List.sum_cons]

/-! ## First match -/

theorem find_flatMap_some {ks : List Kind} {f : Kind → List Backend} {p : Backend → Bool}
    {b : Backend} (h : (ks.flatMap f).find? p = some b) :
    ∃ k ∈ ks, (f k).find? p = some b := by
  induction ks with
  | nil => simp at h
  | cons k rest ih =>
    rw [List.flatMap_cons, List.find?_append] at h
    rcases hk : (f k).find? p with _ | b'
    · rw [hk, Option.none_or] at h
      obtain ⟨k', hk', hb⟩ := ih h
      exact ⟨k', List.mem_cons_of_mem _ hk', hb⟩
    · rw [hk] at h
      change some b' = some b at h
      exact ⟨k, List.mem_cons_self _ _, by rw [hk, h]⟩

theorem find_none_of_all_false {l : List Backend} {p : Backend → Bool}
    (h : ∀ x ∈ l, p x = false) : l.find? p = none := by
  rw [List.find?_eq_none]
  intro x hx
  rw [h x hx]
  exact Bool.false_ne_true

theorem find_filter_kind (bs : List Backend) (k : Kind) (p : Backend → Bool) :
    (bs.filter (fun x => decide (x.kind = k))).find? p =
      bs.find? (fun x => decide (x.kind = k) && p x) := by
  induction bs with
  | nil => rfl
  | cons b rest ih =>
    by_cases hk : b.kind = k
    · by_cases hp : p b = true
      · simp [List.filter_cons, List.find?_cons, hk, hp]
      · simp [List.filter_cons, List.find?_cons, hk, hp, ih]
    · simp [List.filter_cons, List.find?_cons, hk, ih]

/-- The result of the scan of `New bs`, seen from the argument list: it is the first
element of `bs` of some kind `k` that holds the address. -/
theorem find_New_eq_find_in_args (bs : List Backend) (order : List Kind) (a : Address)
    (b : Backend)
    (h : ((New bs).scanOrder order).find? (fun x => x.HasAddress a) = some b) :
    ∃ k ∈ order, bs.find? (fun x => decide (x.kind = k) && x.HasAddress a) = some b := by
  unfold Wallet.scanOrder at h
  obtain ⟨k, hk, hb⟩ := find_flatMap_some h
  rw [New_get, find_filter_kind] at hb
  exact ⟨k, hk, hb⟩

/-! ## Operations on a held mutex -/

theorem HasAddress_held (w : Wallet) (h : w.lk = true) (order : List Kind) (a : Address) :
    w.HasAddress order a = Exec.blocked := by
  unfold Wallet.HasAddress
  rw [Find_held w h order a]

theorem Addresses_held (w : Wallet) (h : w.lk = true) (order : List Kind) :
    w.Addresses order = Exec.blocked := by
  simp [Wallet.Addresses, Wallet.Lock, h]

theorem Backends_held (w : Wallet) (h : w.lk = true) (kind : Kind) :
    w.Backends kind = Exec.blocked := by
  simp [Wallet.Backends, Wallet.Lock, h]

theorem Sign_held (w : Wallet) (h : w.lk = true) (order : List Kind) (a : Address)
    (data : Bytes) : w.Sign order a data = Exec.blocked := by
  unfold Wallet.Sign
  rw [Find_held w h order a]

theorem Sign_free_done (w : Wallet) (h : w.lk = false) (order : List Kind) (a : Address)
    (data : Bytes) : ∃ r log, w.Sign order a data = Exec.done r w log := by
  rw [Sign_free w h order a data]
  cases (w.scanOrder order).find? (fun b => b.HasAddress a) with
  | none => exact ⟨_, _, rfl⟩
  | some b => exact ⟨_, _, rfl⟩

theorem done_wallet_eq {α : Type} {v v' : α} {w w' : Wallet} {log log' : List Event}
    (h : Exec.done v w log = Exec.done v' w' log') : w' = w := by
  injection h with _ hw _
  exact hw.symm

/-! ## Slices in memory: what a write can reach -/

theorem array_set_ne (h : Heap) (j i : Nat) (x : List (Option Backend)) (hne : i ≠ j) :
    Heap.array ⟨h.arrays.set j x⟩ i = h.array i := by
  simp only [Heap.array, List.getD_eq_getElem?_getD]
  rw [List.getElem?_set_ne (Ne.symm hne)]

theorem array_set_eq (h : Heap) (j : Nat) (x : List (Option Backend))
    (hj : j < h.arrays.length) : Heap.array ⟨h.arrays.set j x⟩ j = x := by
  simp only [Heap.array, List.getD_eq_getElem?_getD]
  rw [List.getElem?_set_self hj]
  rfl

theorem make_array_old (h : Heap) (n i : Nat) (hi : i < h.arrays.length) :
    (h.make n).1.array i = h.array i := by
  simp only [Heap.make, Heap.array, List.getD_eq_getElem?_getD]
  rw [List.getElem?_append_left hi]

theorem make_array_new (h : Heap) (n : Nat) :
    (h.make n).1.array h.arrays.length = List.replicate n none := by
  simp [Heap.make, Heap.array, List.getD_eq_getElem?_getD]

theorem make_length (h : Heap) (n : Nat) :
    (h.make n).1.arrays.length = h.arrays.length + 1 := by
  simp [Heap.make]

theorem write_array_ne (h : Heap) (s : Slice) (i : Nat) (v : Option Backend) (j : Nat)
    (hne : j ≠ s.arr) : (h.write s i v).array j = h.array j :=
  array_set_ne h s.arr j _ hne

theorem write_length (h : Heap) (s : Slice) (i : Nat) (v : Option Backend) :
    (h.write s i v).arrays.length = h.arrays.length := by
  simp [Heap.write]

/-- One mutation through a slice keeps the slice on its backing array, allocates
nothing and leaves every other backing array as it was. -/
theorem apply_frame (st : Heap × Slice) (m : Mutation) :
    (Mutation.apply st m).2.arr = st.2.arr ∧
      (Mutation.apply st m).1.arrays.length = st.1.arrays.length ∧
      ∀ j, j ≠ st.2.arr → (Mutation.apply st m).1.array j = st.1.array j := by
  cases m with
  | store i v =>
    by_cases hi : i < st.2.len
    · have e : Mutation.apply st (Mutation.store i v) = (st.1.write st.2 i v, st.2) := by
        simp [Mutation.apply, hi]
      rw [e]
      exact ⟨rfl, write_length _ _ _ _, fun j hj => write_array_ne _ _ _ _ j hj⟩
    · have e : Mutation.apply st (Mutation.store i v) = st := by
        simp [Mutation.apply, hi]
      rw [e]
      exact ⟨rfl, rfl, fun _ _ => rfl⟩
  | swap i j =>
    by_cases hij : i < st.2.len ∧ j < st.2.len
    · have e : Mutation.apply st (Mutation.swap i j) =
          ((st.1.write st.2 i ((st.1.read st.2).getD j none)).write st.2 j
            ((st.1.read st.2).getD i none), st.2) := by
        simp [Mutation.apply, hij]
      rw [e]
      refine ⟨rfl, ?_, ?_⟩
      · rw [write_length, write_length]
      · intro j' hj'
        rw [write_array_ne _ _ _ _ j' hj', write_array_ne _ _ _ _ j' hj']
    · have e : Mutation.apply st (Mutation.swap i j) = st := by
        simp only [Mutation.apply, hij, if_false]
      rw [e]
      exact ⟨rfl, rfl, fun _ _ => rfl⟩
  | truncate n =>
    by_cases hn : n ≤ (st.1.array st.2.arr).length
    · have e : Mutation.apply st (Mutation.truncate n) = (st.1, ⟨st.2.arr, n⟩) := by
        simp [Mutation.apply, hn]
      rw [e]
      exact ⟨rfl, rfl, fun _ _ => rfl⟩
    · have e : Mutation.apply st (Mutation.truncate n) = st := by
        simp [Mutation.apply, hn]
      rw [e]
      exact ⟨rfl, rfl, fun _ _ => rfl⟩

/-- Any sequence of mutations through a slice leaves every other backing array as it
was and allocates nothing. -/
theorem mutate_frame (ms : List Mutation) (st : Heap × Slice) :
    (mutate ms st).2.arr = st.2.arr ∧
      (mutate ms st).1.arrays.length = st.1.arrays.length ∧
      ∀ j, j ≠ st.2.arr → (mutate ms st).1.array j = st.1.array j := by
  induction ms generalizing st with
  | nil => exact ⟨rfl, rfl, fun _ _ => rfl⟩
  | cons m rest ih =>
    obtain ⟨ha, hl, hf⟩ := apply_frame st m
    obtain ⟨ha', hl', hf'⟩ := ih (Mutation.apply st m)
    have hstep : mutate (m :: rest) st = mutate rest (Mutation.apply st m) := rfl
    rw [hstep]
    refine ⟨ha'.trans ha, hl'.trans hl, ?_⟩
    intro j hj
    rw [hf' j (by rw [ha]; exact hj), hf j hj]

theorem getAux_nil_or_mem (k : Kind) (es : List (Kind × Slice)) :
    MemWallet.getAux k es = nilSlice ∨ ∃ e ∈ es, e.2 = MemWallet.getAux k es := by
  induction es with
  | nil => exact Or.inl rfl
  | cons e rest ih =>
    obtain ⟨k0, v0⟩ := e
    by_cases h0 : k0 = k
    · right
      exact ⟨(k0, v0), List.mem_cons_self _ _, by simp [MemWallet.getAux, h0]⟩
    · rcases ih with hnil | ⟨e, he, heq⟩
      · left
        simp [MemWallet.getAux, h0, hnil]
      · right
        exact ⟨e, List.mem_cons_of_mem _ he, by simp [MemWallet.getAux, h0, heq]⟩

/-- A stored slice points below the allocation mark, or is the nil slice. -/
theorem get_allocated_or_empty (w : MemWallet) (n : Nat) (k : Kind)
    (hwf : ∀ e ∈ w.backends, e.2.arr < n) : (w.get k).arr < n ∨ (w.get k).len = 0 := by
  rcases getAux_nil_or_mem k w.backends with hnil | ⟨e, he, heq⟩
  · right
    unfold MemWallet.get
    rw [hnil]
    rfl
  · left
    unfold MemWallet.get
    rw [← heq]
    exact hwf e he

/-- What `Backends` does to the memory: it returns a slice over a new backing array
that holds the elements of the stored slice, and touches no array allocated before. -/
theorem MemBackends_spec (w : MemWallet) (h : Heap) (k : Kind) (hfree : w.lk = false)
    (hsrc : (w.get k).arr < h.arrays.length ∨ (w.get k).len = 0) :
    ∃ (cpy : Slice) (h1 : Heap),
      w.Backends h k = some (cpy, h1) ∧
      cpy.arr = h.arrays.length ∧
      h1.arrays.length = h.arrays.length + 1 ∧
      (∀ i, i < h.arrays.length → h1.array i = h.array i) ∧
      h1.read cpy = h.read (w.get k) := by
  refine ⟨(h.make (w.get k).len).2,
    (h.make (w.get k).len).1.copy (h.make (w.get k).len).2 (w.get k), ?_, rfl, ?_, ?_, ?_⟩
  · simp [MemWallet.Backends, hfree]
  · simp [Heap.copy, Heap.make]
  · intro i hi
    have hne : i ≠ (h.make (w.get k).len).2.arr := Nat.ne_of_lt hi
    unfold Heap.copy
    rw [array_set_ne _ _ _ _ hne, make_array_old h _ i hi]
  · have hlen : (h.make (w.get k).len).2.arr < (h.make (w.get k).len).1.arrays.length := by
      simp [Heap.make]
    have hread : (h.make (w.get k).len).1.read (w.get k) = h.read (w.get k) := by
      rcases hsrc with hlt | hzero
      · simp only [Heap.read]
        rw [make_array_old h _ _ hlt]
      · simp [Heap.read, hzero]
    unfold Heap.copy
    simp only [Heap.read] at hread ⊢
    rw [array_set_eq _ _ _ hlen, hread]
    have hdrop : ((h.make (w.get k).len).1.array (h.make (w.get k).len).2.arr).drop
        (min (h.make (w.get k).len).2.len (w.get k).len) = [] := by
      have : (h.make (w.get k).len).2.arr = h.arrays.length := rfl
      rw [this, make_array_new]
      simp [Heap.make]
    rw [hdrop]
    simp [Heap.make, List.take_take]

theorem read_of_array_eq (h h' : Heap) (s : Slice) (e : h'.array s.arr = h.array s.arr) :
    h'.read s = h.read s := by
  simp only [Heap.read, e]

theorem view_of_reads_eq (w : MemWallet) (h h' : Heap)
    (e : ∀ x ∈ w.backends, h'.read x.2 = h.read x.2) : w.view h' = w.view h := by
  unfold MemWallet.view
  congr 2
  apply List.map_congr_left
  intro x hx
  rw [e x hx]

theorem read_get_eq (w : MemWallet) (h h' : Heap) (k : Kind)
    (e : ∀ x ∈ w.backends, h'.read x.2 = h.read x.2) :
    h'.read (w.get k) = h.read (w.get k) := by
  rcases getAux_nil_or_mem k w.backends with hnil | ⟨x, hx, heq⟩
  · unfold MemWallet.get
    rw [hnil]
    simp [Heap.read, nilSlice]
  · unfold MemWallet.get
    rw [← heq]
    exact e x hx

theorem reduceOption_map_some (l : List (Option Backend)) (hl : ∀ c ∈ l, c ≠ none) :
    l.reduceOption.map some = l := by
  induction l with
  | nil => rfl
  | cons c rest ih =>
    have hrest : ∀ c ∈ rest, c ≠ none := fun x hx => hl x (List.mem_cons_of_mem _ hx)
    cases c with
    | none => exact absurd rfl (hl none (List.mem_cons_self _ _))
    | some b => rw [List.reduceOption_cons_of_some, List.map_cons, ih hrest]

theorem view_get (w : MemWallet) (h : Heap) (k : Kind) :
    (w.view h).backends.get k = (h.read (w.get k)).reduceOption := by
  unfold MemWallet.view GoMap.get MemWallet.get
  simp only
  induction w.backends with
  | nil => simp [GoMap.getAux, MemWallet.getAux, Heap.read, nilSlice]
  | cons e rest ih =>
    obtain ⟨k0, v0⟩ := e
    by_cases h0 : k0 = k
    · simp [GoMap.getAux, MemWallet.getAux, h0]
    · simp only [List.map_cons, GoMap.getAux, MemWallet.getAux, h0, if_false]
      exact ih

/-- The two embeddings of `Backends` agree: when no stored cell is nil, the elements of
the slice returned in memory are the value returned on the wallet read through memory. -/
theorem MemBackends_refines (w : MemWallet) (h : Heap) (k : Kind) (hfree : w.lk = false)
    (hwf : ∀ e ∈ w.backends, e.2.arr < h.arrays.length)
    (hcells : ∀ e ∈ w.backends, ∀ c ∈ h.read e.2, c ≠ none) :
    ∃ (cpy : Slice) (h1 : Heap),
      w.Backends h k = some (cpy, h1) ∧
      (w.view h).Backends k =
        Exec.done (h1.read cpy) (w.view h) [Event.lock, Event.unlock] := by
  obtain ⟨cpy, h1, hB, _, _, _, hread⟩ :=
    MemBackends_spec w h k hfree (get_allocated_or_empty w _ k hwf)
  refine ⟨cpy, h1, hB, ?_⟩
  have hk : ∀ c ∈ h.read (w.get k), c ≠ none := by
    rcases getAux_nil_or_mem k w.backends with hnil | ⟨e, he, heq⟩
    · intro c hc
      unfold MemWallet.get at hc
      rw [hnil] at hc
      simp [Heap.read, nilSlice] at hc
    · intro c hc
      unfold MemWallet.get at hc
      rw [← heq] at hc
      exact hcells e he c hc
  rw [Backends_free (w.view h) hfree k, view_get, reduceOption_map_some _ hk, hread]

/-- Without a copy the caller would reach the group itself: a write through the stored
slice is visible to the wallet. -/
theorem stored_slice_write_is_visible :
    (Mutation.apply (Heap.mk [[some (listBackend 0 [7] (none, none))]], ⟨0, 1⟩)
        (Mutation.store 0 none)).1.read ⟨0, 1⟩ = [none] ∧
    (Heap.mk [[some (listBackend 0 [7] (none, none))]]).read ⟨0, 1⟩ =
      [some (listBackend 0 [7] (none, none))] :=
  ⟨rfl, rfl⟩

/-! ## Logs and the mutex -/

theorem replayMutex_calls (held : Bool) (mid rest : List Event)
    (h : ∀ e ∈ mid, e.isBackendCall = true) :
    replayMutex held (mid ++ rest) = replayMutex held rest := by
  induction mid with
  | nil => rfl
  | cons e tl ih =>
    have htl : ∀ x ∈ tl, x.isBackendCall = true :=
      fun x hx => h x (List.mem_cons_of_mem _ hx)
    have he := h e (List.mem_cons_self _ _)
    cases e with
    | lock => exact absurd he (by simp [Event.isBackendCall])
    | unlock => exact absurd he (by simp [Event.isBackendCall])
    | hasAddress b addr => simpa [replayMutex] using ih htl
    | addresses b => simpa [replayMutex] using ih htl
    | sign b addr data => simpa [replayMutex] using ih htl

theorem mutexAtCalls_calls (held : Bool) (mid rest : List Event)
    (h : ∀ e ∈ mid, e.isBackendCall = true) :
    mutexAtCalls held (mid ++ rest) =
      mid.map (fun e => (e, held)) ++ mutexAtCalls held rest := by
  induction mid with
  | nil => rfl
  | cons e tl ih =>
    have htl : ∀ x ∈ tl, x.isBackendCall = true :=
      fun x hx => h x (List.mem_cons_of_mem _ hx)
    have he := h e (List.mem_cons_self _ _)
    cases e with
    | lock => exact absurd he (by simp [Event.isBackendCall])
    | unlock => exact absurd he (by simp [Event.isBackendCall])
    | hasAddress b addr => simpa [mutexAtCalls] using ih htl
    | addresses b => simpa [mutexAtCalls] using ih htl
    | sign b addr data => simpa [mutexAtCalls] using ih htl

/-- A log that locks, makes backend calls and unlocks leaves a free mutex free, and
makes each of its calls with the mutex held. -/
theorem locked_section (mid : List Event) (h : ∀ e ∈ mid, e.isBackendCall = true) :
    replayMutex false (Event.lock :: mid ++ [Event.unlock]) = some false ∧
      mutexAtCalls false (Event.lock :: mid ++ [Event.unlock]) =
        mid.map (fun e => (e, true)) := by
  constructor
  · show replayMutex true (mid ++ [Event.unlock]) = some false
    rw [replayMutex_calls true mid _ h]
    rfl
  · show mutexAtCalls true (mid ++ [Event.unlock]) = _
    rw [mutexAtCalls_calls true mid _ h]
    simp [mutexAtCalls]

theorem findInGroup_log_calls (a : Address) (g : List Backend) :
    ∀ e ∈ (findInGroup a g).2, e.isBackendCall = true := by
  induction g with
  | nil => simp [findInGroup]
  | cons b rest ih =>
    by_cases hb : b.HasAddress a = true
    · simp [findInGroup, hb, Event.isBackendCall]
    · intro e he
      simp only [findInGroup, hb, Bool.false_eq_true, if_false, List.mem_cons] at he
      rcases he with rfl | he
      · rfl
      · exact ih e he

theorem findInGroups_log_calls (m : GoMap) (a : Address) (order : List Kind) :
    ∀ e ∈ (findInGroups m a order).2, e.isBackendCall = true := by
  induction order with
  | nil => simp [findInGroups]
  | cons k ks ih =>
    have hg := findInGroup_log_calls a (m.get k)
    rw [findInGroups]
    rcases hfg : findInGroup a (m.get k) with ⟨_ | b, evs⟩
    · rw [hfg] at hg
      intro e he
      simp only [List.mem_append] at he
      rcases he with he | he
      · exact hg e he
      · exact ih e he
    · rw [hfg] at hg
      exact hg

theorem addresses_log_calls (l : List Backend) :
    ∀ e ∈ l.map Event.addresses, e.isBackendCall = true := by
  intro e he
  obtain ⟨b, _, rfl⟩ := List.mem_map.mp he
  rfl

/-! ## A single holder, and the value of `HasAddress` -/

theorem find_of_unique_holder {l : List Backend} {a : Address} {b : Backend}
    (hmem : b ∈ l) (hb : b.HasAddress a = true)
    (huniq : ∀ x ∈ l, x.HasAddress a = true → x = b) :
    l.find? (fun x => x.HasAddress a) = some b := by
  rcases hx : l.find? (fun x => x.HasAddress a) with _ | x
  · exact absurd hb (List.find?_eq_none.mp hx b hmem)
  · rw [hx, huniq x (List.mem_of_find?_eq_some hx) (find_holds hx)]

/-- When one element of the argument list holds the address and no other does, the scan
of the wallet finds that element, whatever the order of the arguments and of the map. -/
theorem find_New_unique (pre post bs : List Backend) (b : Backend) (a : Address)
    (order : List Kind) (hb : b.HasAddress a = true)
    (hpre : ∀ x ∈ pre, x.HasAddress a = false) (hpost : ∀ x ∈ post, x.HasAddress a = false)
    (hperm : bs.Perm (pre ++ b :: post)) (horder : order.Perm (New bs).backends.keys) :
    ((New bs).scanOrder order).find? (fun x => x.HasAddress a) = some b := by
  have hscan := (scanOrder_New_perm bs order horder).trans hperm
  apply find_of_unique_holder
  · exact (List.Perm.mem_iff hscan).mpr (by simp)
  · exact hb
  · intro x hx hxa
    have hx' := (List.Perm.mem_iff hscan).mp hx
    simp only [List.mem_append, List.mem_cons] at hx'
    rcases hx' with h1 | h2 | h3
    · rw [hpre x h1] at hxa
      exact absurd hxa Bool.false_ne_true
    · exact h2
    · rw [hpost x h3] at hxa
      exact absurd hxa Bool.false_ne_true

/-- The value of `HasAddress` on `New bs`: whether any element of `bs` holds the
address. -/
theorem HasAddress_New (bs : List Backend) (order : List Kind) (a : Address)
    (h : order.Perm (New bs).backends.keys) :
    (New bs).HasAddress order a =
      Exec.done (bs.any (fun b => b.HasAddress a)) (New bs)
        (Event.lock :: (findInGroups (New bs).backends a order).2 ++ [Event.unlock]) := by
  rw [HasAddress_free (New bs) rfl order a]
  congr 1
  rw [Bool.eq_iff_iff, List.any_eq_true, ← find_New_isSome bs order a h,
    ← findReturn_snd_eq_none]
  simp

theorem any_perm {l l' : List Backend} (p : Backend → Bool) (h : l'.Perm l) :
    l'.any p = l.any p := by
  rw [Bool.eq_iff_iff, List.any_eq_true, List.any_eq_true]
  constructor
  · rintro ⟨x, hx, hp⟩
    exact ⟨x, (List.Perm.mem_iff h).mp hx, hp⟩
  · rintro ⟨x, hx, hp⟩
    exact ⟨x, (List.Perm.mem_iff h).mpr hx, hp⟩

/-- An entry of a map with distinct keys is what a read of its key returns. -/
theorem getAux_of_mem (es : List (Kind × List Backend)) (hnd : (es.map Prod.fst).Nodup)
    (e : Kind × List Backend) (he : e ∈ es) : GoMap.getAux e.1 es = e.2 := by
  induction es with
  | nil => exact absurd he (List.not_mem_nil _)
  | cons e0 rest ih =>
    obtain ⟨k0, v0⟩ := e0
    rw [List.map_cons, List.nodup_cons] at hnd
    rcases List.mem_cons.mp he with rfl | hrest
    · simp [GoMap.getAux]
    · have hne : ¬ k0 = e.1 := by
        intro hk
        have hmem : e.1 ∈ rest.map Prod.fst := List.mem_map_of_mem Prod.fst hrest
        exact hnd.1 (hk ▸ hmem)
      simp only [GoMap.getAux, hne, if_false]
      exact ih hnd.2 hrest

/-- Reading the groups key by key visits the stored sequences, entry by entry. -/
theorem flatMap_snd_eq_scan (es : List (Kind × List Backend))
    (hnd : (es.map Prod.fst).Nodup) :
    es.flatMap Prod.snd = (es.map Prod.fst).flatMap (fun k => GoMap.getAux k es) := by
  rw [List.flatMap_map]
  apply List.flatMap_congr
  intro e he
  exact (getAux_of_mem es hnd e he).symm

theorem length_flatMap_snd (es : List (Kind × List Backend)) :
    (es.flatMap Prod.snd).length = (es.map (fun e => e.2.length)).sum := by
  induction es with
  | nil => rfl
  | cons e rest ih =>
    rw [List.flatMap_cons, List.length_append, ih, List.map_cons, List.sum_cons]

/-! ## Runs, step by step -/

theorem eventsOf_append (t1 t2 : List (Step × Bool)) :
    eventsOf (t1 ++ t2) = eventsOf t1 ++ eventsOf t2 := by
  induction t1 with
  | nil => rfl
  | cons p rest ih =>
    obtain ⟨st, held⟩ := p
    cases st with
    | event e => simp [eventsOf, ih]
    | readMap k => simp [eventsOf, ih]

theorem runFindInGroup_cons (a : Address) (b : Backend) (rest : List Backend)
    (s : RunState) :
    runFindInGroup a (b :: rest) s =
      if b.HasAddress a = true then
        Outcome.ok (some b)
          ⟨s.w, s.trace ++ [(Step.event (Event.hasAddress b a), s.w.lk)]⟩
      else
        runFindInGroup a rest
          ⟨s.w, s.trace ++ [(Step.event (Event.hasAddress b a), s.w.lk)]⟩ := by
  by_cases hb : b.HasAddress a = true
  · simp [runFindInGroup, bind, Run.bind, callHasAddress, hb, pure, Run.pure]
  · simp [runFindInGroup, bind, Run.bind, callHasAddress, hb]

/-- The inner loop of `Find`, step by step: it computes what `findInGroup` computes, leaves
the wallet alone, and each of its steps is a backend call taken with the mutex as it was
on entry. -/
theorem runFindInGroup_spec (a : Address) (g : List Backend) (s : RunState) :
    ∃ mid : List (Step × Bool),
      runFindInGroup a g s = Outcome.ok (findInGroup a g).1 ⟨s.w, s.trace ++ mid⟩ ∧
      (∀ p ∈ mid, p.1.isMutexOp = false ∧ p.2 = s.w.lk) ∧
      eventsOf mid = (findInGroup a g).2 := by
  induction g generalizing s with
  | nil =>
    refine ⟨[], ?_, by simp, rfl⟩
    rw [List.append_nil]
    rfl
  | cons b rest ih =>
    rw [runFindInGroup_cons]
    by_cases hb : b.HasAddress a = true
    · refine ⟨[(Step.event (Event.hasAddress b a), s.w.lk)], ?_, ?_, ?_⟩
      · simp [hb, findInGroup]
      · intro p hp
        simp only [List.mem_singleton] at hp
        subst hp
        exact ⟨rfl, rfl⟩
      · simp [findInGroup, hb, eventsOf]
    · obtain ⟨mid, hrun, hmid, hev⟩ :=
        ih ⟨s.w, s.trace ++ [(Step.event (Event.hasAddress b a), s.w.lk)]⟩
      refine ⟨(Step.event (Event.hasAddress b a), s.w.lk) :: mid, ?_, ?_, ?_⟩
      · simp only [hb, if_false]
        rw [hrun]
        simp [findInGroup, hb]
      · intro p hp
        rcases List.mem_cons.mp hp with rfl | hp
        · exact ⟨rfl, rfl⟩
        · exact hmid p hp
      · simp [findInGroup, hb, eventsOf, hev]

/-- The outer loop of `Find`, step by step: it computes what `findInGroups` computes on
the map of the wallet, leaves the wallet alone, and each of its steps is a map read or a
backend call taken with the mutex as it was on entry. -/
theorem runFindInGroups_spec (a : Address) (order : List Kind) (s : RunState) :
    ∃ mid : List (Step × Bool),
      runFindInGroups a order s =
        Outcome.ok (findInGroups s.w.backends a order).1 ⟨s.w, s.trace ++ mid⟩ ∧
      (∀ p ∈ mid, p.1.isMutexOp = false ∧ p.2 = s.w.lk) ∧
      eventsOf mid = (findInGroups s.w.backends a order).2 := by
  induction order generalizing s with
  | nil =>
    refine ⟨[], ?_, by simp, rfl⟩
    rw [List.append_nil]
    rfl
  | cons k ks ih =>
    obtain ⟨mid1, hrun1, hmid1, hev1⟩ :=
      runFindInGroup_spec a (s.w.backends.get k)
        ⟨s.w, s.trace ++ [(Step.readMap k, s.w.lk)]⟩
    have hstep : runFindInGroups a (k :: ks) s =
        match runFindInGroup a (s.w.backends.get k)
            ⟨s.w, s.trace ++ [(Step.readMap k, s.w.lk)]⟩ with
        | Outcome.ok (some backend) s1 => Outcome.ok (some backend) s1
        | Outcome.ok none s1 => runFindInGroups a ks s1
        | Outcome.blocked => Outcome.blocked
        | Outcome.fatal => Outcome.fatal := by
      simp only [runFindInGroups, bind, Run.bind, readGroup]
      cases runFindInGroup a (s.w.backends.get k)
          ⟨s.w, s.trace ++ [(Step.readMap k, s.w.lk)]⟩ with
      | ok val s1 => cases val <;> rfl
      | blocked => rfl
      | fatal => rfl
    rw [hstep, hrun1]
    rcases hfg : findInGroup a (s.w.backends.get k) with ⟨_ | b, evs⟩
    · obtain ⟨mid2, hrun2, hmid2, hev2⟩ :=
        ih ⟨s.w, s.trace ++ [(Step.readMap k, s.w.lk)] ++ mid1⟩
      rw [hfg] at hev1
      refine ⟨(Step.readMap k, s.w.lk) :: (mid1 ++ mid2), ?_, ?_, ?_⟩
      · simp only
        rw [hrun2]
        simp [findInGroups, hfg]
      · intro p hp
        rcases List.mem_cons.mp hp with rfl | hp
        · exact ⟨rfl, rfl⟩
        · rcases List.mem_append.mp hp with hp | hp
          · exact hmid1 p hp
          · exact hmid2 p hp
      · simp only [eventsOf, eventsOf_append, hev1, hev2, findInGroups, hfg]
    · rw [hfg] at hev1
      refine ⟨(Step.readMap k, s.w.lk) :: mid1, ?_, ?_, ?_⟩
      · simp [findInGroups, hfg]
      · intro p hp
        rcases List.mem_cons.mp hp with rfl | hp
        · exact ⟨rfl, rfl⟩
        · exact hmid1 p hp
      · simp only [eventsOf, hev1, findInGroups, hfg]

theorem mutexLock_free (w : Wallet) (h : w.lk = false) (tr : List (Step × Bool)) :
    mutexLock ⟨w, tr⟩ =
      Outcome.ok () ⟨{ w with lk := true }, tr ++ [(Step.event Event.lock, false)]⟩ := by
  simp [mutexLock, Wallet.Lock, h]

theorem mutexLock_held (w : Wallet) (h : w.lk = true) (tr : List (Step × Bool)) :
    mutexLock ⟨w, tr⟩ = Outcome.blocked := by
  simp [mutexLock, Wallet.Lock, h]

theorem mutexUnlock_held (w : Wallet) (h : w.lk = false) (tr : List (Step × Bool)) :
    mutexUnlock ⟨{ w with lk := true }, tr⟩ =
      Outcome.ok () ⟨w, tr ++ [(Step.event Event.unlock, true)]⟩ := by
  obtain ⟨_, h2⟩ := lock_unlock_free w h
  simp only [mutexUnlock, h2]

/-- `Find`, step by step, on a free mutex: `Lock` on a free mutex, then map reads and
backend calls with the mutex held, then `Unlock`; the value and the events are those of
`Wallet.Find`. -/
theorem runFind_free (w : Wallet) (h : w.lk = false) (order : List Kind) (a : Address)
    (tr : List (Step × Bool)) :
    ∃ mid : List (Step × Bool),
      runFind order a ⟨w, tr⟩ =
        Outcome.ok (findReturn ((w.scanOrder order).find? (fun b => b.HasAddress a)))
          ⟨w, tr ++ ((Step.event Event.lock, false) :: mid
            ++ [(Step.event Event.unlock, true)])⟩ ∧
      (∀ p ∈ mid, p.1.isMutexOp = false ∧ p.2 = true) ∧
      eventsOf mid = (findInGroups w.backends a order).2 := by
  obtain ⟨mid, hrun, hmid, hev⟩ :=
    runFindInGroups_spec a order
      ⟨{ w with lk := true }, tr ++ [(Step.event Event.lock, false)]⟩
  refine ⟨mid, ?_, hmid, hev⟩
  have hdef : runFind order a ⟨w, tr⟩ =
      Run.bind mutexLock (fun _ =>
        Run.bind (runFindInGroups a order) (fun found =>
          Run.bind mutexUnlock (fun _ => Run.pure (findReturn found)))) ⟨w, tr⟩ := rfl
  rw [hdef]
  simp only [Run.bind, mutexLock_free w h, hrun, mutexUnlock_held w h, Run.pure,
    findInGroups_fst, Wallet.scanOrder]
  simp

theorem runFind_held (w : Wallet) (h : w.lk = true) (order : List Kind) (a : Address)
    (tr : List (Step × Bool)) : runFind order a ⟨w, tr⟩ = Outcome.blocked := by
  have hdef : runFind order a ⟨w, tr⟩ =
      Run.bind mutexLock (fun _ =>
        Run.bind (runFindInGroups a order) (fun found =>
          Run.bind mutexUnlock (fun _ => Run.pure (findReturn found)))) ⟨w, tr⟩ := rfl
  rw [hdef]
  simp only [Run.bind, mutexLock_held w h]

/-- The inner loop of `Addresses`, step by step. -/
theorem runAppendGroup_spec (out : List Address) (g : List Backend) (s : RunState) :
    ∃ mid : List (Step × Bool),
      runAppendGroup out g s =
        Outcome.ok (out ++ g.flatMap (fun b => b.Addresses)) ⟨s.w, s.trace ++ mid⟩ ∧
      (∀ p ∈ mid, p.1.isMutexOp = false ∧ p.2 = s.w.lk) ∧
      eventsOf mid = g.map Event.addresses := by
  induction g generalizing out s with
  | nil =>
    refine ⟨[], ?_, by simp, rfl⟩
    simp only [List.flatMap_nil, List.append_nil]
    rfl
  | cons b rest ih =>
    obtain ⟨mid, hrun, hmid, hev⟩ :=
      ih (out ++ b.Addresses) ⟨s.w, s.trace ++ [(Step.event (Event.addresses b), s.w.lk)]⟩
    have hstep : runAppendGroup out (b :: rest) s =
        runAppendGroup (out ++ b.Addresses) rest
          ⟨s.w, s.trace ++ [(Step.event (Event.addresses b), s.w.lk)]⟩ := rfl
    refine ⟨(Step.event (Event.addresses b), s.w.lk) :: mid, ?_, ?_, ?_⟩
    · rw [hstep, hrun]
      simp
    · intro p hp
      rcases List.mem_cons.mp hp with rfl | hp
      · exact ⟨rfl, rfl⟩
      · exact hmid p hp
    · simp only [eventsOf, hev, List.map_cons]

/-- The outer loop of `Addresses`, step by step. -/
theorem runAppendGroups_spec (out : List Address) (order : List Kind) (s : RunState) :
    ∃ mid : List (Step × Bool),
      runAppendGroups out order s =
        Outcome.ok
          (out ++ (order.flatMap (fun k => s.w.backends.get k)).flatMap
            (fun b => b.Addresses))
          ⟨s.w, s.trace ++ mid⟩ ∧
      (∀ p ∈ mid, p.1.isMutexOp = false ∧ p.2 = s.w.lk) ∧
      eventsOf mid = (order.flatMap (fun k => s.w.backends.get k)).map Event.addresses := by
  induction order generalizing out s with
  | nil =>
    refine ⟨[], ?_, by simp, rfl⟩
    simp only [List.flatMap_nil, List.append_nil]
    rfl
  | cons k ks ih =>
    obtain ⟨mid1, hrun1, hmid1, hev1⟩ :=
      runAppendGroup_spec out (s.w.backends.get k)
        ⟨s.w, s.trace ++ [(Step.readMap k, s.w.lk)]⟩
    obtain ⟨mid2, hrun2, hmid2, hev2⟩ :=
      ih (out ++ (s.w.backends.get k).flatMap (fun b => b.Addresses))
        ⟨s.w, s.trace ++ [(Step.readMap k, s.w.lk)] ++ mid1⟩
    have hstep : runAppendGroups out (k :: ks) s =
        match runAppendGroup out (s.w.backends.get k)
            ⟨s.w, s.trace ++ [(Step.readMap k, s.w.lk)]⟩ with
        | Outcome.ok out1 s1 => runAppendGroups out1 ks s1
        | Outcome.blocked => Outcome.blocked
        | Outcome.fatal => Outcome.fatal := by
      simp only [runAppendGroups, bind, Run.bind, readGroup]
      cases runAppendGroup out (s.w.backends.get k)
          ⟨s.w, s.trace ++ [(Step.readMap k, s.w.lk)]⟩ <;> rfl
    refine ⟨(Step.readMap k, s.w.lk) :: (mid1 ++ mid2), ?_, ?_, ?_⟩
    · rw [hstep, hrun1]
      simp only
      rw [hrun2]
      simp
    · intro p hp
      rcases List.mem_cons.mp hp with rfl | hp
      · exact ⟨rfl, rfl⟩
      · rcases List.mem_append.mp hp with hp | hp
        · exact hmid1 p hp
        · exact hmid2 p hp
    · simp only [eventsOf, eventsOf_append, hev1, hev2, List.flatMap_cons, List.map_append]

/-- `Addresses`, step by step, on a free mutex. -/
theorem runAddresses_free (w : Wallet) (h : w.lk = false) (order : List Kind)
    (tr : List (Step × Bool)) :
    ∃ mid : List (Step × Bool),
      runAddresses order ⟨w, tr⟩ =
        Outcome.ok ((w.scanOrder order).flatMap (fun b => b.Addresses))
          ⟨w, tr ++ ((Step.event Event.lock, false) :: mid
            ++ [(Step.event Event.unlock, true)])⟩ ∧
      (∀ p ∈ mid, p.1.isMutexOp = false ∧ p.2 = true) ∧
      eventsOf mid = (w.scanOrder order).map Event.addresses := by
  obtain ⟨mid, hrun, hmid, hev⟩ :=
    runAppendGroups_spec [] order
      ⟨{ w with lk := true }, tr ++ [(Step.event Event.lock, false)]⟩
  refine ⟨mid, ?_, hmid, hev⟩
  have hdef : runAddresses order ⟨w, tr⟩ =
      Run.bind mutexLock (fun _ =>
        Run.bind (runAppendGroups [] order) (fun out =>
          Run.bind mutexUnlock (fun _ => Run.pure out))) ⟨w, tr⟩ := rfl
  rw [hdef]
  simp only [Run.bind, mutexLock_free w h, hrun, mutexUnlock_held w h, Run.pure,
    Wallet.scanOrder]
  simp

theorem runAddresses_held (w : Wallet) (h : w.lk = true) (order : List Kind)
    (tr : List (Step × Bool)) : runAddresses order ⟨w, tr⟩ = Outcome.blocked := by
  have hdef : runAddresses order ⟨w, tr⟩ =
      Run.bind mutexLock (fun _ =>
        Run.bind (runAppendGroups [] order) (fun out =>
          Run.bind mutexUnlock (fun _ => Run.pure out))) ⟨w, tr⟩ := rfl
  rw [hdef]
  simp only [Run.bind, mutexLock_held w h]

/-- `Backends`, step by step, on a free mutex: `Lock`, the two reads of the map with the
mutex held, `Unlock`. -/
theorem runBackends_free (w : Wallet) (h : w.lk = false) (kind : Kind)
    (tr : List (Step × Bool)) :
    runBackends kind ⟨w, tr⟩ =
      Outcome.ok ((w.backends.get kind).map some)
        ⟨w, tr ++ [(Step.event Event.lock, false), (Step.readMap kind, true),
          (Step.readMap kind, true), (Step.event Event.unlock, true)]⟩ := by
  have hdef : runBackends kind ⟨w, tr⟩ =
      Run.bind mutexLock (fun _ =>
        Run.bind (readGroup kind) (fun src0 =>
          Run.bind (readGroup kind) (fun src =>
            Run.bind mutexUnlock (fun _ =>
              Run.pure (goCopy (goMake src0.length) src))))) ⟨w, tr⟩ := rfl
  rw [hdef]
  simp only [Run.bind, mutexLock_free w h, readGroup, mutexUnlock_held w h, Run.pure,
    goCopy_goMake]
  simp

theorem runBackends_held (w : Wallet) (h : w.lk = true) (kind : Kind)
    (tr : List (Step × Bool)) : runBackends kind ⟨w, tr⟩ = Outcome.blocked := by
  have hdef : runBackends kind ⟨w, tr⟩ =
      Run.bind mutexLock (fun _ =>
        Run.bind (readGroup kind) (fun src0 =>
          Run.bind (readGroup kind) (fun src =>
            Run.bind mutexUnlock (fun _ =>
              Run.pure (goCopy (goMake src0.length) src))))) ⟨w, tr⟩ := rfl
  rw [hdef]
  simp only [Run.bind, mutexLock_held w h]

/-! ## Claims -/

/-- C1: for every list of backends `bs`, address `a` and iteration orders of the map,
`New(bs...).HasAddress(a)` returns, never fails, is true exactly when some backend of `bs`
answers true to `HasAddress(a)`, and is true exactly when `Find(a)` returns a nil error. -/
theorem C1_HasAddress_iff_some_backend_holds (bs : List Backend) (a : Address)
    (order order' : List Kind)
    (h : order.Perm (New bs).backends.keys) (h' : order'.Perm (New bs).backends.keys) :
    ∃ (v : Bool) (log : List Event) (r : Option Backend × Option GoError)
      (log' : List Event),
      (New bs).HasAddress order a = Exec.done v (New bs) log ∧
      (New bs).Find order' a = Exec.done r (New bs) log' ∧
      (v = true ↔ ∃ b ∈ bs, b.HasAddress a = true) ∧
      (v = true ↔ r.2 = none) := by
  refine ⟨_, _, _, _, HasAddress_free (New bs) rfl order a,
    Find_free (New bs) rfl order' a, ?_, ?_⟩
  · rw [← find_New_isSome bs order a h, ← findReturn_snd_eq_none]
    simp
  · rw [findReturn_snd_eq_none, find_New_isSome bs order' a h',
      ← find_New_isSome bs order a h, ← findReturn_snd_eq_none]
    simp

/-- Witness of C1: two backends of different kinds, the map ranged over in both orders. -/
theorem C1_HasAddress_iff_some_backend_holds_witness :
    [1, 0].Perm (New [listBackend 0 [7] (none, none),
        listBackend 1 [8] (none, none)]).backends.keys ∧
    [0, 1].Perm (New [listBackend 0 [7] (none, none),
        listBackend 1 [8] (none, none)]).backends.keys ∧
    ∃ (v : Bool) (log : List Event) (r : Option Backend × Option GoError)
      (log' : List Event),
      (New [listBackend 0 [7] (none, none), listBackend 1 [8] (none, none)]).HasAddress
          [1, 0] 7
        = Exec.done v
            (New [listBackend 0 [7] (none, none), listBackend 1 [8] (none, none)]) log ∧
      (New [listBackend 0 [7] (none, none), listBackend 1 [8] (none, none)]).Find [0, 1] 7
        = Exec.done r
            (New [listBackend 0 [7] (none, none), listBackend 1 [8] (none, none)]) log' ∧
      (v = true ↔ ∃ b ∈ [listBackend 0 [7] (none, none), listBackend 1 [8] (none, none)],
          b.HasAddress 7 = true) ∧
      (v = true ↔ r.2 = none) :=
  ⟨by decide, by decide,
    C1_HasAddress_iff_some_backend_holds
      [listBackend 0 [7] (none, none), listBackend 1 [8] (none, none)] 7 [1, 0] [0, 1]
      (by decide) (by decide)⟩

/-- C2: for every list of backends `bs` and address `a`, `New(bs...).Find(a)` returns
`(nil, ErrUnknownAddress)` exactly when no backend of `bs` holds `a`; otherwise it returns,
with a nil error, a backend that is an element of `bs` and answers true to `HasAddress(a)`. -/
theorem C2_Find_unknown_iff_no_backend_holds (bs : List Backend) (a : Address)
    (order : List Kind) (h : order.Perm (New bs).backends.keys) :
    ∃ (r : Option Backend × Option GoError) (log : List Event),
      (New bs).Find order a = Exec.done r (New bs) log ∧
      (r = (none, some ErrUnknownAddress) ↔ ∀ b ∈ bs, b.HasAddress a = false) ∧
      (¬ (∀ b ∈ bs, b.HasAddress a = false) →
        ∃ b, r = (some b, none) ∧ b ∈ bs ∧ b.HasAddress a = true) := by
  have hperm := scanOrder_New_perm bs order h
  refine ⟨_, _, Find_free (New bs) rfl order a, ?_, ?_⟩
  · rcases hx : ((New bs).scanOrder order).find? (fun b => b.HasAddress a) with _ | b
    · simp only [hx, findReturn, true_iff]
      intro b hb
      have := List.find?_eq_none.mp hx b ((List.Perm.mem_iff hperm).mpr hb)
      simpa using this
    · simp only [hx, findReturn, Prod.mk.injEq, reduceCtorEq, false_and, false_iff]
      intro hall
      have hp := find_holds hx
      have hm := (List.Perm.mem_iff hperm).mp (List.mem_of_find?_eq_some hx)
      simp only [hall b hm] at hp
      exact Bool.false_ne_true hp
  · intro hne
    rcases hx : ((New bs).scanOrder order).find? (fun b => b.HasAddress a) with _ | b
    · exfalso
      apply hne
      intro b hb
      have := List.find?_eq_none.mp hx b ((List.Perm.mem_iff hperm).mpr hb)
      simpa using this
    · exact ⟨b, by rw [hx]; rfl,
        (List.Perm.mem_iff hperm).mp (List.mem_of_find?_eq_some hx), find_holds hx⟩

/-- Witness of C2: the address is held by the second of two backends of different kinds. -/
theorem C2_Find_unknown_iff_no_backend_holds_witness :
    [1, 0].Perm (New [listBackend 0 [7] (none, none),
        listBackend 1 [8] (none, none)]).backends.keys ∧
    ∃ (r : Option Backend × Option GoError) (log : List Event),
      (New [listBackend 0 [7] (none, none), listBackend 1 [8] (none, none)]).Find [1, 0] 8
        = Exec.done r
            (New [listBackend 0 [7] (none, none), listBackend 1 [8] (none, none)]) log ∧
      (r = (none, some ErrUnknownAddress) ↔
        ∀ b ∈ [listBackend 0 [7] (none, none), listBackend 1 [8] (none, none)],
          b.HasAddress 8 = false) ∧
      (¬ (∀ b ∈ [listBackend 0 [7] (none, none), listBackend 1 [8] (none, none)],
          b.HasAddress 8 = false) →
        ∃ b, r = (some b, none) ∧
          b ∈ [listBackend 0 [7] (none, none), listBackend 1 [8] (none, none)] ∧
          b.HasAddress 8 = true) :=
  ⟨by decide,
    C2_Find_unknown_iff_no_backend_holds
      [listBackend 0 [7] (none, none), listBackend 1 [8] (none, none)] 8 [1, 0]
      (by decide)⟩

/-- C3: on every wallet, for an address `a` held by at least one registered backend and
any payload, `Sign(a, data)` returns exactly the pair that the backend resolved by `Find(a)`
returns from its own `Sign(a, data)`, success or failure alike; that backend's `Sign` is
called once, with `a` and `data` as given, and nothing else is signed. -/
theorem C3_Sign_returns_resolved_backend_result (w : Wallet) (order : List Kind)
    (a : Address) (data : Bytes) (hfree : w.lk = false)
    (horder : order.Perm w.backends.keys)
    (hheld : ∃ k ∈ w.backends.keys, ∃ b ∈ w.backends.get k, b.HasAddress a = true) :
    ∃ (b : Backend) (log : List Event),
      w.Find order a = Exec.done (some b, none) w log ∧
      w.Sign order a data = Exec.done (b.Sign a data) w (log ++ [Event.sign b a data]) ∧
      (∀ e ∈ log, e.isSign = false) := by
  obtain ⟨k, hk, b0, hb0, hp0⟩ := hheld
  have hmem : b0 ∈ w.scanOrder order :=
    (mem_scanOrder w order b0).mpr ⟨k, (List.Perm.mem_iff horder).mpr hk, hb0⟩
  rcases hx : (w.scanOrder order).find? (fun b => b.HasAddress a) with _ | b
  · have := List.find?_eq_none.mp hx b0 hmem
    exact absurd hp0 this
  · refine ⟨b, _, ?_, ?_, Find_log_noSign w order a⟩
    · rw [Find_free w hfree order a, hx]
      rfl
    · rw [Sign_free w hfree order a data, hx]

/-- Witness of C3: the resolved backend fails to sign, and `Sign` returns that failure. -/
theorem C3_Sign_returns_resolved_backend_result_witness :
    (New [listBackend 0 [7] (none, some (GoError.new "locked key")),
        listBackend 1 [8] (some [1, 2], none)]).lk = false ∧
    [1, 0].Perm (New [listBackend 0 [7] (none, some (GoError.new "locked key")),
        listBackend 1 [8] (some [1, 2], none)]).backends.keys ∧
    ∃ (b : Backend) (log : List Event),
      (New [listBackend 0 [7] (none, some (GoError.new "locked key")),
          listBackend 1 [8] (some [1, 2], none)]).Find [1, 0] 7
        = Exec.done (some b, none)
            (New [listBackend 0 [7] (none, some (GoError.new "locked key")),
              listBackend 1 [8] (some [1, 2], none)]) log ∧
      (New [listBackend 0 [7] (none, some (GoError.new "locked key")),
          listBackend 1 [8] (some [1, 2], none)]).Sign [1, 0] 7 (some [9])
        = Exec.done (b.Sign 7 (some [9]))
            (New [listBackend 0 [7] (none, some (GoError.new "locked key")),
              listBackend 1 [8] (some [1, 2], none)])
            (log ++ [Event.sign b 7 (some [9])]) ∧
      (∀ e ∈ log, e.isSign = false) :=
  ⟨rfl, by decide,
    C3_Sign_returns_resolved_backend_result
      (New [listBackend 0 [7] (none, some (GoError.new "locked key")),
        listBackend 1 [8] (some [1, 2], none)])
      [1, 0] 7 (some [9]) rfl (by decide)
      ⟨0, by decide, listBackend 0 [7] (none, some (GoError.new "locked key")),
        by simp [New, buildFrom, GoMap.get, GoMap.set, GoMap.getAux, GoMap.setAux,
          listBackend],
        by decide⟩⟩

/-- C4: on every wallet, for an address `a` held by no registered backend and any
payload, `Sign(a, data)` returns a nil signature and `ErrUnknownAddress` wrapped with the
message "failed to sign data" (so its cause is `ErrUnknownAddress`), and no backend's
`Sign` is called. -/
theorem C4_Sign_unknown_address_wrapped (w : Wallet) (order : List Kind) (a : Address)
    (data : Bytes) (hfree : w.lk = false) (horder : order.Perm w.backends.keys)
    (hnone : ∀ k ∈ w.backends.keys, ∀ b ∈ w.backends.get k, b.HasAddress a = false) :
    ∃ (log : List Event),
      w.Sign order a data =
        Exec.done (none, some (GoError.wrap ErrUnknownAddress "failed to sign data")) w log ∧
      (GoError.wrap ErrUnknownAddress "failed to sign data").Cause = ErrUnknownAddress ∧
      (∀ e ∈ log, e.isSign = false) := by
  have hx : (w.scanOrder order).find? (fun b => b.HasAddress a) = none := by
    rw [List.find?_eq_none]
    intro b hb
    obtain ⟨k, hk, hbk⟩ := (mem_scanOrder w order b).mp hb
    rw [hnone k ((List.Perm.mem_iff horder).mp hk) b hbk]
    exact Bool.false_ne_true
  refine ⟨_, ?_, rfl, Find_log_noSign w order a⟩
  rw [Sign_free w hfree order a data, hx]

/-- Witness of C4: one backend holding address 7, a signing request for address 8. -/
theorem C4_Sign_unknown_address_wrapped_witness :
    (New [listBackend 0 [7] (some [1], none)]).lk = false ∧
    [0].Perm (New [listBackend 0 [7] (some [1], none)]).backends.keys ∧
    (∀ k ∈ (New [listBackend 0 [7] (some [1], none)]).backends.keys,
      ∀ b ∈ (New [listBackend 0 [7] (some [1], none)]).backends.get k,
        b.HasAddress 8 = false) ∧
    ∃ (log : List Event),
      (New [listBackend 0 [7] (some [1], none)]).Sign [0] 8 (some [104, 105]) =
        Exec.done (none, some (GoError.wrap ErrUnknownAddress "failed to sign data"))
          (New [listBackend 0 [7] (some [1], none)]) log ∧
      (GoError.wrap ErrUnknownAddress "failed to sign data").Cause = ErrUnknownAddress ∧
      (∀ e ∈ log, e.isSign = false) :=
  have hnone : ∀ k ∈ (New [listBackend 0 [7] (some [1], none)]).backends.keys,
      ∀ b ∈ (New [listBackend 0 [7] (some [1], none)]).backends.get k,
        b.HasAddress 8 = false := by
    intro k hk b hb
    rw [New_get] at hb
    have hb' := (List.mem_filter.mp hb).1
    simp only [List.mem_singleton] at hb'
    subst hb'
    rfl
  ⟨rfl, by decide, hnone,
    C4_Sign_unknown_address_wrapped (New [listBackend 0 [7] (some [1], none)]) [0] 8
      (some [104, 105]) rfl (by decide) hnone⟩

/-- C5: for every list of backends `bs` and every iteration order of the map,
`New(bs...).Addresses()` is, as a multiset, the sum of `b.Addresses()` over the elements
`b` of `bs`: it is a permutation of the concatenation of the backends' lists, its elements
are exactly the addresses listed by some backend, and its length is the sum of the lengths
of the backends' lists. -/
theorem C5_Addresses_multiset_sum (bs : List Backend) (order : List Kind)
    (h : order.Perm (New bs).backends.keys) :
    ∃ (out : List Address) (log : List Event),
      (New bs).Addresses order = Exec.done out (New bs) log ∧
      (out : Multiset Address) = (bs.map (fun b => (b.Addresses : Multiset Address))).sum ∧
      out.Perm (bs.flatMap (fun b => b.Addresses)) ∧
      (∀ a, a ∈ out ↔ ∃ b ∈ bs, a ∈ b.Addresses) ∧
      out.length = (bs.map (fun b => b.Addresses.length)).sum := by
  have hperm : (((New bs).scanOrder order).flatMap (fun b => b.Addresses)).Perm
      (bs.flatMap (fun b => b.Addresses)) :=
    List.Perm.flatMap_right _ (scanOrder_New_perm bs order h)
  refine ⟨_, _, Addresses_free (New bs) rfl order, ?_, hperm, ?_, ?_⟩
  · rw [← coe_flatMap_Addresses]
    exact Multiset.coe_eq_coe.mpr hperm
  · intro a
    rw [List.Perm.mem_iff hperm, List.mem_flatMap]
  · rw [List.Perm.length_eq hperm, length_flatMap_Addresses]

/-- Witness of C5: three backends of two kinds sharing address 7, the map ranged over
with the later kind first. -/
theorem C5_Addresses_multiset_sum_witness :
    [1, 0].Perm (New [listBackend 0 [7] (none, none), listBackend 1 [7, 8] (none, none),
        listBackend 0 [9] (none, none)]).backends.keys ∧
    ∃ (out : List Address) (log : List Event),
      (New [listBackend 0 [7] (none, none), listBackend 1 [7, 8] (none, none),
          listBackend 0 [9] (none, none)]).Addresses [1, 0]
        = Exec.done out
            (New [listBackend 0 [7] (none, none), listBackend 1 [7, 8] (none, none),
              listBackend 0 [9] (none, none)]) log ∧
      (out : Multiset Address) =
        (([listBackend 0 [7] (none, none), listBackend 1 [7, 8] (none, none),
          listBackend 0 [9] (none, none)] : List Backend).map
            (fun b => (b.Addresses : Multiset Address))).sum ∧
      out.Perm (([listBackend 0 [7] (none, none), listBackend 1 [7, 8] (none, none),
          listBackend 0 [9] (none, none)] : List Backend).flatMap (fun b => b.Addresses)) ∧
      (∀ a, a ∈ out ↔
        ∃ b ∈ ([listBackend 0 [7] (none, none), listBackend 1 [7, 8] (none, none),
          listBackend 0 [9] (none, none)] : List Backend), a ∈ b.Addresses) ∧
      out.length =
        (([listBackend 0 [7] (none, none), listBackend 1 [7, 8] (none, none),
          listBackend 0 [9] (none, none)] : List Backend).map
            (fun b => b.Addresses.length)).sum :=
  ⟨by decide,
    C5_Addresses_multiset_sum
      [listBackend 0 [7] (none, none), listBackend 1 [7, 8] (none, none),
        listBackend 0 [9] (none, none)] [1, 0] (by decide)⟩

/-- C6: for every list of backends `bs` and kind `k`, `New(bs...).Backends(k)` returns,
in content and order, the subsequence of `bs` of the backends whose dynamic type is `k`
(repeated registrations kept, no nil cell left by `make`); with no backend of kind `k`
it returns the empty sequence, of length 0, and not a failure. -/
theorem C6_Backends_is_subsequence_of_kind (bs : List Backend) (k : Kind) :
    (New bs).Backends k =
        Exec.done ((bs.filter (fun b => decide (b.kind = k))).map some) (New bs)
          [Event.lock, Event.unlock] ∧
      ((∀ b ∈ bs, b.kind ≠ k) →
        (New bs).Backends k = Exec.done [] (New bs) [Event.lock, Event.unlock]) := by
  have hmain : (New bs).Backends k =
      Exec.done ((bs.filter (fun b => decide (b.kind = k))).map some) (New bs)
        [Event.lock, Event.unlock] := by
    rw [Backends_free (New bs) rfl k, New_get]
  refine ⟨hmain, ?_⟩
  intro hnone
  have hnil : bs.filter (fun b => decide (b.kind = k)) = [] := by
    rw [List.filter_eq_nil_iff]
    intro b hb
    simpa using hnone b hb
  rw [hmain, hnil]
  rfl

/-- Witness of C6: the same backend registered twice among another kind, and a kind
that was never registered. -/
theorem C6_Backends_is_subsequence_of_kind_witness :
    ((New [listBackend 0 [7] (none, none), listBackend 1 [8] (none, none),
        listBackend 0 [7] (none, none)]).Backends 0 =
        Exec.done
          ((([listBackend 0 [7] (none, none), listBackend 1 [8] (none, none),
            listBackend 0 [7] (none, none)] : List Backend).filter
              (fun b => decide (b.kind = 0))).map some)
          (New [listBackend 0 [7] (none, none), listBackend 1 [8] (none, none),
            listBackend 0 [7] (none, none)])
          [Event.lock, Event.unlock]) ∧
    (∀ b ∈ ([listBackend 0 [7] (none, none), listBackend 1 [8] (none, none),
        listBackend 0 [7] (none, none)] : List Backend), b.kind ≠ 2) ∧
    (New [listBackend 0 [7] (none, none), listBackend 1 [8] (none, none),
        listBackend 0 [7] (none, none)]).Backends 2 =
      Exec.done []
        (New [listBackend 0 [7] (none, none), listBackend 1 [8] (none, none),
          listBackend 0 [7] (none, none)])
        [Event.lock, Event.unlock] :=
  have hne : ∀ b ∈ ([listBackend 0 [7] (none, none), listBackend 1 [8] (none, none),
      listBackend 0 [7] (none, none)] : List Backend), b.kind ≠ 2 := by
    intro b hb
    simp only [List.mem_cons, List.mem_singleton, List.not_mem_nil, or_false] at hb
    rcases hb with rfl | rfl | rfl <;> decide
  ⟨(C6_Backends_is_subsequence_of_kind _ 0).1, hne,
    (C6_Backends_is_subsequence_of_kind _ 2).2 hne⟩

/-- C7: for every list of backends, iteration order of the map and address `a`,
`Find(a)` on the wallet returns the first backend of its scan order (the groups in the
iteration order of the map, each group in registration order) that answers true to
`HasAddress(a)`: every backend scanned before it answers false, and no backend of the same
kind registered before it holds `a`.  In particular, when two backends of the same kind
are the ones that hold `a`, `Find(a)` returns the one registered earlier. -/
theorem C7_Find_returns_first_in_scan_order (bs : List Backend) (order : List Kind)
    (a : Address) (h : order.Perm (New bs).backends.keys) :
    ∃ (r : Option Backend × Option GoError) (log : List Event),
      (New bs).Find order a = Exec.done r (New bs) log ∧
      (New bs).scanOrder order =
        order.flatMap (fun k => bs.filter (fun b => decide (b.kind = k))) ∧
      r = findReturn (((New bs).scanOrder order).find? (fun b => b.HasAddress a)) ∧
      (∀ b, r = (some b, none) →
        ∃ pre post, (New bs).scanOrder order = pre ++ b :: post ∧
          b.HasAddress a = true ∧ ∀ x ∈ pre, x.HasAddress a = false) ∧
      (∀ b, r = (some b, none) →
        ∃ pre post, bs = pre ++ b :: post ∧
          ∀ x ∈ pre, x.kind = b.kind → x.HasAddress a = false) ∧
      (∀ pre mid post b1 b2, bs = pre ++ b1 :: mid ++ b2 :: post →
        b1.kind = b2.kind → b1.HasAddress a = true → b2.HasAddress a = true →
        (∀ x ∈ pre ++ mid ++ post, x.HasAddress a = false) →
        r = (some b1, none)) := by
  have hscan : (New bs).scanOrder order =
      order.flatMap (fun k => bs.filter (fun b => decide (b.kind = k))) := by
    unfold Wallet.scanOrder
    congr 1
    funext k
    exact New_get bs k
  have hret : ∀ b, findReturn (((New bs).scanOrder order).find? (fun b => b.HasAddress a))
      = (some b, none) →
      ((New bs).scanOrder order).find? (fun b => b.HasAddress a) = some b := by
    intro b hb
    rcases hx : ((New bs).scanOrder order).find? (fun b => b.HasAddress a) with _ | b'
    · rw [hx] at hb
      simp [findReturn] at hb
    · rw [hx] at hb
      simp only [findReturn, Prod.mk.injEq, and_true] at hb
      rw [hx]
      exact hb
  refine ⟨_, _, Find_free (New bs) rfl order a, hscan, rfl, ?_, ?_, ?_⟩
  · intro b hb
    obtain ⟨hp, pre, post, hsplit, hpre⟩ := List.find?_eq_some.mp (hret b hb)
    refine ⟨pre, post, hsplit, hp, ?_⟩
    intro x hx
    simpa using hpre x hx
  · intro b hb
    obtain ⟨k, _, hfind⟩ := find_New_eq_find_in_args bs order a b (hret b hb)
    obtain ⟨hp, pre, post, hsplit, hpre⟩ := List.find?_eq_some.mp hfind
    have hkb : b.kind = k := by
      simp only [Bool.and_eq_true, decide_eq_true_eq] at hp
      exact hp.1
    refine ⟨pre, post, hsplit, ?_⟩
    intro x hx hxk
    have := hpre x hx
    simp only [Bool.not_eq_true', Bool.and_eq_false_imp, decide_eq_true_eq] at this
    exact this (hxk.trans hkb)
  · intro pre mid post b1 b2 hbs hkind h1 h2 hothers
    have hheld : ∃ b ∈ bs, b.HasAddress a = true :=
      ⟨b1, by rw [hbs]; simp, h1⟩
    have hsome := (find_New_isSome bs order a h).mpr hheld
    rcases hx : ((New bs).scanOrder order).find? (fun b => b.HasAddress a) with _ | b
    · rw [hx] at hsome
      exact absurd hsome (by simp)
    · obtain ⟨k, _, hfind⟩ := find_New_eq_find_in_args bs order a b hx
      have hpre : pre.find? (fun x => decide (x.kind = k) && x.HasAddress a) = none :=
        find_none_of_all_false (fun x hx => by
          rw [hothers x (by simp [hx])]; simp)
      have hmid : mid.find? (fun x => decide (x.kind = k) && x.HasAddress a) = none :=
        find_none_of_all_false (fun x hx => by
          rw [hothers x (by simp [hx])]; simp)
      have hpost : post.find? (fun x => decide (x.kind = k) && x.HasAddress a) = none :=
        find_none_of_all_false (fun x hx => by
          rw [hothers x (by simp [hx])]; simp)
      have hb1 : b = b1 := by
        rw [hbs] at hfind
        by_cases hk : b1.kind = k
        · simp [List.find?_append, hpre, List.find?_cons, hk, h1] at hfind
          exact hfind.symm
        · have hk2 : ¬ b2.kind = k := fun e => hk (hkind.trans e)
          simp [List.find?_append, hpre, hmid, hpost, List.find?_cons, hk, hk2] at hfind
      rw [hx, hb1]
      rfl

/-- Witness of C7: two backends of the same kind both hold address 7; the one
registered first is returned. -/
theorem C7_Find_returns_first_in_scan_order_witness :
    [0].Perm (New [listBackend 0 [7] (none, none),
        listBackend 0 [7, 8] (none, none)]).backends.keys ∧
    ∃ (r : Option Backend × Option GoError) (log : List Event),
      (New [listBackend 0 [7] (none, none), listBackend 0 [7, 8] (none, none)]).Find [0] 7
        = Exec.done r
            (New [listBackend 0 [7] (none, none), listBackend 0 [7, 8] (none, none)]) log ∧
      (New [listBackend 0 [7] (none, none),
          listBackend 0 [7, 8] (none, none)]).scanOrder [0] =
        [0].flatMap (fun k =>
          ([listBackend 0 [7] (none, none), listBackend 0 [7, 8] (none, none)]
            : List Backend).filter (fun b => decide (b.kind = k))) ∧
      r = findReturn (((New [listBackend 0 [7] (none, none),
          listBackend 0 [7, 8] (none, none)]).scanOrder [0]).find?
            (fun b => b.HasAddress 7)) ∧
      (∀ b, r = (some b, none) →
        ∃ pre post,
          (New [listBackend 0 [7] (none, none),
            listBackend 0 [7, 8] (none, none)]).scanOrder [0] = pre ++ b :: post ∧
          b.HasAddress 7 = true ∧ ∀ x ∈ pre, x.HasAddress 7 = false) ∧
      (∀ b, r = (some b, none) →
        ∃ pre post,
          [listBackend 0 [7] (none, none), listBackend 0 [7, 8] (none, none)]
            = pre ++ b :: post ∧
          ∀ x ∈ pre, x.kind = b.kind → x.HasAddress 7 = false) ∧
      (∀ pre mid post b1 b2,
        [listBackend 0 [7] (none, none), listBackend 0 [7, 8] (none, none)]
          = pre ++ b1 :: mid ++ b2 :: post →
        b1.kind = b2.kind → b1.HasAddress 7 = true → b2.HasAddress 7 = true →
        (∀ x ∈ pre ++ mid ++ post, x.HasAddress 7 = false) →
        r = (some b1, none)) :=
  ⟨by decide,
    C7_Find_returns_first_in_scan_order
      [listBackend 0 [7] (none, none), listBackend 0 [7, 8] (none, none)] [0] 7
      (by decide)⟩

/-- C8, as stated, fails: a backend may list an address in `Addresses()` and answer
false to `HasAddress` for it; the wallet then returns the address from `Addresses()`
while `HasAddress` is false and `Find` returns `ErrUnknownAddress`. -/
theorem C8_counterexample_listed_address_not_held :
    [0].Perm (New [denyingBackend 0 [7]]).backends.keys ∧
    (New [denyingBackend 0 [7]]).Addresses [0] =
      Exec.done [7] (New [denyingBackend 0 [7]])
        [Event.lock, Event.addresses (denyingBackend 0 [7]), Event.unlock] ∧
    (New [denyingBackend 0 [7]]).HasAddress [0] 7 =
      Exec.done false (New [denyingBackend 0 [7]])
        [Event.lock, Event.hasAddress (denyingBackend 0 [7]) 7, Event.unlock] ∧
    (New [denyingBackend 0 [7]]).Find [0] 7 =
      Exec.done (none, some ErrUnknownAddress) (New [denyingBackend 0 [7]])
        [Event.lock, Event.hasAddress (denyingBackend 0 [7]) 7, Event.unlock] :=
  ⟨by decide, rfl, rfl, rfl⟩

/-- C8, amended: on every wallet, every address in the result of `Addresses()` is listed
by the `Addresses()` of at least one registered backend; and when every registered backend
answers true to `HasAddress` for each address it lists, `HasAddress(a)` is true and
`Find(a)` succeeds for every such address, whatever the iteration order of the map. -/
theorem C8_listed_address_comes_from_a_backend (w : Wallet) (order order' : List Kind)
    (hfree : w.lk = false) (horder : order.Perm w.backends.keys)
    (horder' : order'.Perm w.backends.keys) :
    ∃ (out : List Address) (log : List Event),
      w.Addresses order = Exec.done out w log ∧
      (∀ a ∈ out, ∃ k ∈ w.backends.keys, ∃ b ∈ w.backends.get k, a ∈ b.Addresses) ∧
      ((∀ k ∈ w.backends.keys, ∀ b ∈ w.backends.get k, ∀ a ∈ b.Addresses,
          b.HasAddress a = true) →
        ∀ a ∈ out,
          (∃ k ∈ w.backends.keys, ∃ b ∈ w.backends.get k, b.HasAddress a = true) ∧
          ∃ (b : Backend) (log1 log2 : List Event),
            w.HasAddress order' a = Exec.done true w log1 ∧
            w.Find order' a = Exec.done (some b, none) w log2 ∧
            b.HasAddress a = true) := by
  have hsrc : ∀ a ∈ (w.scanOrder order).flatMap (fun b => b.Addresses),
      ∃ k ∈ w.backends.keys, ∃ b ∈ w.backends.get k, a ∈ b.Addresses := by
    intro a ha
    obtain ⟨b, hb, hab⟩ := List.mem_flatMap.mp ha
    obtain ⟨k, hk, hbk⟩ := (mem_scanOrder w order b).mp hb
    exact ⟨k, (List.Perm.mem_iff horder).mp hk, b, hbk, hab⟩
  refine ⟨_, _, Addresses_free w hfree order, hsrc, ?_⟩
  intro hcoh a ha
  obtain ⟨k, hk, b0, hb0, hab⟩ := hsrc a ha
  have hp0 : b0.HasAddress a = true := hcoh k hk b0 hb0 a hab
  refine ⟨⟨k, hk, b0, hb0, hp0⟩, ?_⟩
  have hmem : b0 ∈ w.scanOrder order' :=
    (mem_scanOrder w order' b0).mpr ⟨k, (List.Perm.mem_iff horder').mpr hk, hb0⟩
  rcases hx : (w.scanOrder order').find? (fun b => b.HasAddress a) with _ | b
  · exact absurd hp0 (List.find?_eq_none.mp hx b0 hmem)
  · refine ⟨b, Event.lock :: (findInGroups w.backends a order').2 ++ [Event.unlock],
      Event.lock :: (findInGroups w.backends a order').2 ++ [Event.unlock], ?_, ?_,
      find_holds hx⟩
    · rw [HasAddress_free w hfree order' a, hx]
      rfl
    · rw [Find_free w hfree order' a, hx]
      rfl

/-- Witness of the amended C8: two backends that hold what they list. -/
theorem C8_listed_address_comes_from_a_backend_witness :
    (New [listBackend 0 [7] (none, none), listBackend 1 [8] (none, none)]).lk = false ∧
    [1, 0].Perm (New [listBackend 0 [7] (none, none),
        listBackend 1 [8] (none, none)]).backends.keys ∧
    [0, 1].Perm (New [listBackend 0 [7] (none, none),
        listBackend 1 [8] (none, none)]).backends.keys ∧
    ∃ (out : List Address) (log : List Event),
      (New [listBackend 0 [7] (none, none), listBackend 1 [8] (none, none)]).Addresses
          [1, 0]
        = Exec.done out
            (New [listBackend 0 [7] (none, none), listBackend 1 [8] (none, none)]) log ∧
      (∀ a ∈ out,
        ∃ k ∈ (New [listBackend 0 [7] (none, none),
            listBackend 1 [8] (none, none)]).backends.keys,
          ∃ b ∈ (New [listBackend 0 [7] (none, none),
              listBackend 1 [8] (none, none)]).backends.get k,
            a ∈ b.Addresses) ∧
      ((∀ k ∈ (New [listBackend 0 [7] (none, none),
            listBackend 1 [8] (none, none)]).backends.keys,
          ∀ b ∈ (New [listBackend 0 [7] (none, none),
              listBackend 1 [8] (none, none)]).backends.get k,
            ∀ a ∈ b.Addresses, b.HasAddress a = true) →
        ∀ a ∈ out,
          (∃ k ∈ (New [listBackend 0 [7] (none, none),
              listBackend 1 [8] (none, none)]).backends.keys,
            ∃ b ∈ (New [listBackend 0 [7] (none, none),
                listBackend 1 [8] (none, none)]).backends.get k,
              b.HasAddress a = true) ∧
          ∃ (b : Backend) (log1 log2 : List Event),
            (New [listBackend 0 [7] (none, none),
                listBackend 1 [8] (none, none)]).HasAddress [0, 1] a
              = Exec.done true
                  (New [listBackend 0 [7] (none, none), listBackend 1 [8] (none, none)])
                  log1 ∧
            (New [listBackend 0 [7] (none, none),
                listBackend 1 [8] (none, none)]).Find [0, 1] a
              = Exec.done (some b, none)
                  (New [listBackend 0 [7] (none, none), listBackend 1 [8] (none, none)])
                  log2 ∧
            b.HasAddress a = true) :=
  ⟨rfl, by decide, by decide,
    C8_listed_address_comes_from_a_backend
      (New [listBackend 0 [7] (none, none), listBackend 1 [8] (none, none)])
      [1, 0] [0, 1] rfl (by decide) (by decide)⟩

/-- C9: on every wallet and for every argument, `HasAddress`, `Find`, `Addresses`,
`Backends` and `Sign` return when the mutex is free and leave the wallet, its mapping
included, exactly as it was; and whenever one of them returns, on its success and on its
failure path alike, the mapping after the call is the mapping before it. -/
theorem C9_operations_leave_mapping_unchanged (w : Wallet) (order : List Kind)
    (a : Address) (k : Kind) (data : Bytes) :
    (w.lk = false →
      (∃ v log, w.HasAddress order a = Exec.done v w log) ∧
      (∃ r log, w.Find order a = Exec.done r w log) ∧
      (∃ out log, w.Addresses order = Exec.done out w log) ∧
      (∃ cpy log, w.Backends k = Exec.done cpy w log) ∧
      (∃ r log, w.Sign order a data = Exec.done r w log)) ∧
    (∀ v w' log, w.HasAddress order a = Exec.done v w' log → w'.backends = w.backends) ∧
    (∀ r w' log, w.Find order a = Exec.done r w' log → w'.backends = w.backends) ∧
    (∀ out w' log, w.Addresses order = Exec.done out w' log → w'.backends = w.backends) ∧
    (∀ cpy w' log, w.Backends k = Exec.done cpy w' log → w'.backends = w.backends) ∧
    (∀ r w' log, w.Sign order a data = Exec.done r w' log → w'.backends = w.backends) := by
  refine ⟨fun hfree => ⟨⟨_, _, HasAddress_free w hfree order a⟩,
    ⟨_, _, Find_free w hfree order a⟩, ⟨_, _, Addresses_free w hfree order⟩,
    ⟨_, _, Backends_free w hfree k⟩, Sign_free_done w hfree order a data⟩, ?_, ?_, ?_, ?_, ?_⟩
  · intro v w' log h
    cases hlk : w.lk with
    | true => rw [HasAddress_held w hlk] at h; cases h
    | false => rw [HasAddress_free w hlk] at h; rw [done_wallet_eq h]
  · intro r w' log h
    cases hlk : w.lk with
    | true => rw [Find_held w hlk] at h; cases h
    | false => rw [Find_free w hlk] at h; rw [done_wallet_eq h]
  · intro out w' log h
    cases hlk : w.lk with
    | true => rw [Addresses_held w hlk] at h; cases h
    | false => rw [Addresses_free w hlk] at h; rw [done_wallet_eq h]
  · intro cpy w' log h
    cases hlk : w.lk with
    | true => rw [Backends_held w hlk] at h; cases h
    | false => rw [Backends_free w hlk] at h; rw [done_wallet_eq h]
  · intro r w' log h
    cases hlk : w.lk with
    | true => rw [Sign_held w hlk] at h; cases h
    | false =>
      obtain ⟨r0, log0, h0⟩ := Sign_free_done w hlk order a data
      rw [h0] at h
      rw [done_wallet_eq h]

/-- Witness of C9: a failing `Find` and a failing `Sign` on a wallet with one backend. -/
theorem C9_operations_leave_mapping_unchanged_witness :
    (New [listBackend 0 [7] (none, none)]).lk = false ∧
    (New [listBackend 0 [7] (none, none)]).Find [0] 8 =
      Exec.done (none, some ErrUnknownAddress) (New [listBackend 0 [7] (none, none)])
        [Event.lock, Event.hasAddress (listBackend 0 [7] (none, none)) 8, Event.unlock] ∧
    (∀ r w' log, (New [listBackend 0 [7] (none, none)]).Sign [0] 8 none
        = Exec.done r w' log →
      w'.backends = (New [listBackend 0 [7] (none, none)]).backends) :=
  ⟨rfl, rfl,
    (C9_operations_leave_mapping_unchanged (New [listBackend 0 [7] (none, none)])
      [0] 8 0 none).2.2.2.2.2⟩

/-- C10: `Backends(k)` returns a defensive copy.  On every wallet whose stored slices
point into allocated backing arrays, `Backends(k)` returns a slice over a new backing
array holding the elements of the group; after any sequence of overwrites, exchanges and
truncations through the returned slice, every group of the wallet reads as before, so the
wallet is unchanged and a later `Backends`, `Find` or `Addresses` call returns what it
would have returned without the mutations. -/
theorem C10_Backends_returns_defensive_copy (w : MemWallet) (h : Heap) (k : Kind)
    (ms : List Mutation) (hfree : w.lk = false)
    (hwf : ∀ e ∈ w.backends, e.2.arr < h.arrays.length) :
    ∃ (cpy : Slice) (h1 : Heap),
      w.Backends h k = some (cpy, h1) ∧
      h1.read cpy = h.read (w.get k) ∧
      (∀ e ∈ w.backends, h1.read e.2 = h.read e.2) ∧
      (∀ e ∈ w.backends, (mutate ms (h1, cpy)).1.read e.2 = h.read e.2) ∧
      w.view (mutate ms (h1, cpy)).1 = w.view h ∧
      (∀ k', ∃ (c : Slice) (h3 : Heap) (c0 : Slice) (h0 : Heap),
        w.Backends (mutate ms (h1, cpy)).1 k' = some (c, h3) ∧
        w.Backends h1 k' = some (c0, h0) ∧
        h3.read c = h0.read c0 ∧ h3.read c = h.read (w.get k')) ∧
      (∀ order a,
        (w.view (mutate ms (h1, cpy)).1).Find order a = (w.view h1).Find order a) ∧
      (∀ order,
        (w.view (mutate ms (h1, cpy)).1).Addresses order = (w.view h1).Addresses order) ∧
      (∀ k',
        (w.view (mutate ms (h1, cpy)).1).Backends k' = (w.view h1).Backends k') := by
  obtain ⟨cpy, h1, hB, harr, hlen, hold, hread⟩ :=
    MemBackends_spec w h k hfree (get_allocated_or_empty w _ k hwf)
  obtain ⟨_, hl, hf⟩ := mutate_frame ms (h1, cpy)
  have hreads1 : ∀ e ∈ w.backends, h1.read e.2 = h.read e.2 := fun e he =>
    read_of_array_eq h h1 e.2 (hold _ (hwf e he))
  have hreads2 : ∀ e ∈ w.backends, (mutate ms (h1, cpy)).1.read e.2 = h.read e.2 := by
    intro e he
    have hne : e.2.arr ≠ cpy.arr := by
      rw [harr]
      exact Nat.ne_of_lt (hwf e he)
    rw [read_of_array_eq h1 _ e.2 (hf _ hne)]
    exact hreads1 e he
  have hview1 : w.view h1 = w.view h := view_of_reads_eq w h h1 hreads1
  have hview2 : w.view (mutate ms (h1, cpy)).1 = w.view h :=
    view_of_reads_eq w h _ hreads2
  refine ⟨cpy, h1, hB, hread, hreads1, hreads2, hview2, ?_, ?_, ?_, ?_⟩
  · intro k'
    have hwf1 : ∀ e ∈ w.backends, e.2.arr < h1.arrays.length := fun e he => by
      rw [hlen]
      exact Nat.lt_succ_of_lt (hwf e he)
    have hwf2 : ∀ e ∈ w.backends, e.2.arr < (mutate ms (h1, cpy)).1.arrays.length :=
      fun e he => by
        rw [hl]
        exact hwf1 e he
    obtain ⟨c, h3, hB3, _, _, _, hread3⟩ :=
      MemBackends_spec w (mutate ms (h1, cpy)).1 k' hfree
        (get_allocated_or_empty w _ k' hwf2)
    obtain ⟨c0, h0, hB0, _, _, _, hread0⟩ :=
      MemBackends_spec w h1 k' hfree (get_allocated_or_empty w _ k' hwf1)
    have e3 : h3.read c = h.read (w.get k') := by
      rw [hread3]
      exact read_get_eq w h _ k' hreads2
    have e0 : h0.read c0 = h.read (w.get k') := by
      rw [hread0]
      exact read_get_eq w h _ k' hreads1
    exact ⟨c, h3, c0, h0, hB3, hB0, e3.trans e0.symm, e3⟩
  · intro order a
    rw [hview2, hview1]
  · intro order
    rw [hview2, hview1]
  · intro k'
    rw [hview2, hview1]

/-- Witness of C10: a wallet with one group of two backends; the caller overwrites,
exchanges and truncates the returned slice, which changes the copy and nothing else. -/
theorem C10_Backends_returns_defensive_copy_witness :
    (MemWallet.mk false [(0, ⟨0, 2⟩)]).lk = false ∧
    (∀ e ∈ (MemWallet.mk false [(0, ⟨0, 2⟩)]).backends,
      e.2.arr < (Heap.mk [[some (listBackend 0 [7] (none, none)),
        some (listBackend 0 [8] (none, none))]]).arrays.length) ∧
    (MemWallet.mk false [(0, ⟨0, 2⟩)]).Backends
        (Heap.mk [[some (listBackend 0 [7] (none, none)),
          some (listBackend 0 [8] (none, none))]]) 0 =
      some (⟨1, 2⟩,
        Heap.mk [[some (listBackend 0 [7] (none, none)),
            some (listBackend 0 [8] (none, none))],
          [some (listBackend 0 [7] (none, none)),
            some (listBackend 0 [8] (none, none))]]) ∧
    mutate [Mutation.store 0 none, Mutation.swap 0 1, Mutation.truncate 1]
        (Heap.mk [[some (listBackend 0 [7] (none, none)),
            some (listBackend 0 [8] (none, none))],
          [some (listBackend 0 [7] (none, none)),
            some (listBackend 0 [8] (none, none))]], ⟨1, 2⟩) =
      (Heap.mk [[some (listBackend 0 [7] (none, none)),
            some (listBackend 0 [8] (none, none))],
          [some (listBackend 0 [8] (none, none)), none]], ⟨1, 1⟩) ∧
    ∃ (cpy : Slice) (h1 : Heap),
      (MemWallet.mk false [(0, ⟨0, 2⟩)]).Backends
          (Heap.mk [[some (listBackend 0 [7] (none, none)),
            some (listBackend 0 [8] (none, none))]]) 0 = some (cpy, h1) ∧
      (∀ e ∈ (MemWallet.mk false [(0, ⟨0, 2⟩)]).backends,
        (mutate [Mutation.store 0 none, Mutation.swap 0 1, Mutation.truncate 1]
            (h1, cpy)).1.read e.2 =
          (Heap.mk [[some (listBackend 0 [7] (none, none)),
            some (listBackend 0 [8] (none, none))]]).read e.2) :=
  have hwf : ∀ e ∈ (MemWallet.mk false [(0, ⟨0, 2⟩)]).backends,
      e.2.arr < (Heap.mk [[some (listBackend 0 [7] (none, none)),
        some (listBackend 0 [8] (none, none))]]).arrays.length := by
    intro e he
    simp only [List.mem_singleton] at he
    subst he
    decide
  ⟨rfl, hwf, rfl, rfl,
    match C10_Backends_returns_defensive_copy (MemWallet.mk false [(0, ⟨0, 2⟩)])
      (Heap.mk [[some (listBackend 0 [7] (none, none)),
        some (listBackend 0 [8] (none, none))]]) 0
      [Mutation.store 0 none, Mutation.swap 0 1, Mutation.truncate 1] rfl hwf with
    | ⟨cpy, h1, hB, _, _, hreads, _⟩ => ⟨cpy, h1, hB, hreads⟩⟩

/-- C11: `Verify` and `Ecrecover` are address-independent.  For any two wallets, whatever
their backends and the state of their mutex, and any inputs, `Verify(pk, data, sig)`
returns the pair that the primitive `verify` returns on `(pk, data, sig)` and
`Ecrecover(data, sig)` the pair that the primitive `ecrecover` returns on `(data, sig)`;
neither takes the lock nor calls a backend, and the wallet is left as it was. -/
theorem C11_Verify_Ecrecover_bypass_registry
    (verify : Bytes → Bytes → Bytes → Bool × Option GoError)
    (ecrecover : Bytes → Bytes → Bytes × Option GoError)
    (w1 w2 : Wallet) (pk data sig : Bytes) :
    Wallet.Verify verify w1 pk data sig = Exec.done (verify pk data sig) w1 [] ∧
    Wallet.Verify verify w2 pk data sig = Exec.done (verify pk data sig) w2 [] ∧
    Wallet.Ecrecover ecrecover w1 data sig = Exec.done (ecrecover data sig) w1 [] ∧
    Wallet.Ecrecover ecrecover w2 data sig = Exec.done (ecrecover data sig) w2 [] ∧
    (∀ bs cs : List Backend,
      ∃ r, Wallet.Verify verify (New bs) pk data sig = Exec.done r (New bs) [] ∧
        Wallet.Verify verify (New cs) pk data sig = Exec.done r (New cs) []) ∧
    (∀ bs cs : List Backend,
      ∃ r, Wallet.Ecrecover ecrecover (New bs) data sig = Exec.done r (New bs) [] ∧
        Wallet.Ecrecover ecrecover (New cs) data sig = Exec.done r (New cs) []) :=
  ⟨rfl, rfl, rfl, rfl, fun _ _ => ⟨_, rfl, rfl⟩, fun _ _ => ⟨_, rfl, rfl⟩⟩

/-- C12: `Find`, `Addresses` and `Backends`, run step by step from any state.  With the
lock free, each returns with the wallet as it was, lock free again, and its steps are:
`Lock`, taken on a free mutex; then map reads and backend calls only, each taken with the
mutex held, so the lock is never taken again while held; then `Unlock`, taken on a held
mutex.  The values and the mutex operations and backend calls are those of `Wallet.Find`,
`Wallet.Addresses` and `Wallet.Backends`.  With the lock held, each waits at `Lock` and
never returns.  When `Find` returns `ErrUnknownAddress`, the lock is free and the last
step was `Unlock`. -/
theorem C12_lock_held_from_entry_to_exit (w : Wallet) (order : List Kind) (a : Address)
    (k : Kind) (tr : List (Step × Bool)) :
    (w.lk = false →
      (∃ (r : Option Backend × Option GoError) (mid : List (Step × Bool)),
        runFind order a ⟨w, tr⟩ =
          Outcome.ok r
            ⟨w, tr ++ ((Step.event Event.lock, false) :: mid
              ++ [(Step.event Event.unlock, true)])⟩ ∧
        (∀ p ∈ mid, p.1.isMutexOp = false ∧ p.2 = true) ∧
        w.Find order a =
          Exec.done r w
            (eventsOf ((Step.event Event.lock, false) :: mid
              ++ [(Step.event Event.unlock, true)]))) ∧
      (∃ (out : List Address) (mid : List (Step × Bool)),
        runAddresses order ⟨w, tr⟩ =
          Outcome.ok out
            ⟨w, tr ++ ((Step.event Event.lock, false) :: mid
              ++ [(Step.event Event.unlock, true)])⟩ ∧
        (∀ p ∈ mid, p.1.isMutexOp = false ∧ p.2 = true) ∧
        w.Addresses order =
          Exec.done out w
            (eventsOf ((Step.event Event.lock, false) :: mid
              ++ [(Step.event Event.unlock, true)]))) ∧
      (∃ (cpy : List (Option Backend)),
        runBackends k ⟨w, tr⟩ =
          Outcome.ok cpy
            ⟨w, tr ++ [(Step.event Event.lock, false), (Step.readMap k, true),
              (Step.readMap k, true), (Step.event Event.unlock, true)]⟩ ∧
        w.Backends k =
          Exec.done cpy w
            (eventsOf [(Step.event Event.lock, false), (Step.readMap k, true),
              (Step.readMap k, true), (Step.event Event.unlock, true)]))) ∧
    (w.lk = true →
      runFind order a ⟨w, tr⟩ = Outcome.blocked ∧ w.Find order a = Exec.blocked ∧
      runAddresses order ⟨w, tr⟩ = Outcome.blocked ∧ w.Addresses order = Exec.blocked ∧
      runBackends k ⟨w, tr⟩ = Outcome.blocked ∧ w.Backends k = Exec.blocked) ∧
    (∀ s', runFind order a ⟨w, tr⟩ = Outcome.ok (none, some ErrUnknownAddress) s' →
      s'.w.lk = false ∧ ∃ pre, s'.trace = pre ++ [(Step.event Event.unlock, true)]) := by
  have hevents : ∀ mid : List (Step × Bool),
      eventsOf ((Step.event Event.lock, false) :: mid ++ [(Step.event Event.unlock, true)])
        = Event.lock :: eventsOf mid ++ [Event.unlock] := by
    intro mid
    show Event.lock :: eventsOf (mid ++ [(Step.event Event.unlock, true)]) = _
    rw [eventsOf_append]
    rfl
  refine ⟨?_, ?_, ?_⟩
  · intro hfree
    refine ⟨?_, ?_, ?_⟩
    · obtain ⟨mid, hrun, hmid, hev⟩ := runFind_free w hfree order a tr
      refine ⟨_, mid, hrun, hmid, ?_⟩
      rw [hevents, hev]
      exact Find_free w hfree order a
    · obtain ⟨mid, hrun, hmid, hev⟩ := runAddresses_free w hfree order tr
      refine ⟨_, mid, hrun, hmid, ?_⟩
      rw [hevents, hev]
      exact Addresses_free w hfree order
    · exact ⟨_, runBackends_free w hfree k tr, Backends_free w hfree k⟩
  · intro hheld
    exact ⟨runFind_held w hheld order a tr, Find_held w hheld order a,
      runAddresses_held w hheld order tr, Addresses_held w hheld order,
      runBackends_held w hheld k tr, Backends_held w hheld k⟩
  · intro s' hs'
    cases hlk : w.lk with
    | true =>
      rw [runFind_held w hlk order a tr] at hs'
      cases hs'
    | false =>
      obtain ⟨mid, hrun, _, _⟩ := runFind_free w hlk order a tr
      rw [hrun] at hs'
      injection hs' with _ hstate
      rw [← hstate]
      refine ⟨hlk, tr ++ (Step.event Event.lock, false) :: mid, ?_⟩
      simp

/-- Witness of C12: a wallet with two backends asked for an address that neither holds,
first with the lock free and then with the lock held. -/
theorem C12_lock_held_from_entry_to_exit_witness :
    (New [listBackend 0 [7] (none, none), listBackend 1 [8] (none, none)]).lk = false ∧
    runFind [1, 0] 9
        ⟨New [listBackend 0 [7] (none, none), listBackend 1 [8] (none, none)], []⟩ =
      Outcome.ok (none, some ErrUnknownAddress)
        ⟨New [listBackend 0 [7] (none, none), listBackend 1 [8] (none, none)],
          [(Step.event Event.lock, false), (Step.readMap 1, true),
            (Step.event (Event.hasAddress (listBackend 1 [8] (none, none)) 9), true),
            (Step.readMap 0, true),
            (Step.event (Event.hasAddress (listBackend 0 [7] (none, none)) 9), true),
            (Step.event Event.unlock, true)]⟩ ∧
    (∀ s', runFind [1, 0] 9
          ⟨New [listBackend 0 [7] (none, none), listBackend 1 [8] (none, none)], []⟩
        = Outcome.ok (none, some ErrUnknownAddress) s' →
      s'.w.lk = false ∧ ∃ pre, s'.trace = pre ++ [(Step.event Event.unlock, true)]) ∧
    (Wallet.mk true (New [listBackend 0 [7] (none, none)]).backends).lk = true ∧
    runBackends 0 ⟨Wallet.mk true (New [listBackend 0 [7] (none, none)]).backends, []⟩ =
      Outcome.blocked ∧
    (Wallet.mk true (New [listBackend 0 [7] (none, none)]).backends).Backends 0 =
      Exec.blocked :=
  ⟨rfl, rfl,
    (C12_lock_held_from_entry_to_exit
      (New [listBackend 0 [7] (none, none), listBackend 1 [8] (none, none)])
      [1, 0] 9 0 []).2.2,
    rfl,
    ((C12_lock_held_from_entry_to_exit
      (Wallet.mk true (New [listBackend 0 [7] (none, none)]).backends)
      [0] 7 0 []).2.1 rfl).2.2.2.2.1,
    ((C12_lock_held_from_entry_to_exit
      (Wallet.mk true (New [listBackend 0 [7] (none, none)]).backends)
      [0] 7 0 []).2.1 rfl).2.2.2.2.2⟩

/-- C13: `Sign` takes the lock only through `Find`.  On a wallet whose lock is free, for
an address held by a registered backend, the log of `Sign(a, data)` is the log of
`Find(a)` (one `Lock`, `HasAddress` calls, one `Unlock`) followed by the call of the
resolved backend's `Sign`: the lock is free when that call is made, and it was held at
each `HasAddress` call before it. -/
theorem C13_backend_Sign_called_after_Unlock (w : Wallet) (order : List Kind)
    (a : Address) (data : Bytes) (hfree : w.lk = false)
    (horder : order.Perm w.backends.keys)
    (hheld : ∃ k ∈ w.backends.keys, ∃ b ∈ w.backends.get k, b.HasAddress a = true) :
    ∃ (b : Backend) (mid : List Event),
      w.Find order a = Exec.done (some b, none) w (Event.lock :: mid ++ [Event.unlock]) ∧
      w.Sign order a data =
        Exec.done (b.Sign a data) w
          ((Event.lock :: mid ++ [Event.unlock]) ++ [Event.sign b a data]) ∧
      (∀ e ∈ mid, e.isBackendCall = true ∧ e.isSign = false) ∧
      replayMutex false (Event.lock :: mid ++ [Event.unlock]) = some false ∧
      mutexAtCalls false ((Event.lock :: mid ++ [Event.unlock]) ++ [Event.sign b a data]) =
        mid.map (fun e => (e, true)) ++ [(Event.sign b a data, false)] ∧
      replayMutex false ((Event.lock :: mid ++ [Event.unlock]) ++ [Event.sign b a data]) =
        some false := by
  obtain ⟨k, hk, b0, hb0, hp0⟩ := hheld
  have hmem : b0 ∈ w.scanOrder order :=
    (mem_scanOrder w order b0).mpr ⟨k, (List.Perm.mem_iff horder).mpr hk, hb0⟩
  have hcalls := findInGroups_log_calls w.backends a order
  have hnosign := findInGroups_log_noSign w.backends a order
  rcases hx : (w.scanOrder order).find? (fun b => b.HasAddress a) with _ | b
  · exact absurd hp0 (List.find?_eq_none.mp hx b0 hmem)
  · have hshape :
        (Event.lock :: (findInGroups w.backends a order).2 ++ [Event.unlock])
            ++ [Event.sign b a data]
          = Event.lock ::
              ((findInGroups w.backends a order).2 ++ [Event.unlock, Event.sign b a data]) := by
      simp
    refine ⟨b, (findInGroups w.backends a order).2, ?_, ?_,
      fun e he => ⟨hcalls e he, hnosign e he⟩, (locked_section _ hcalls).1, ?_, ?_⟩
    · rw [Find_free w hfree order a, hx]
      rfl
    · rw [Sign_free w hfree order a data, hx]
    · rw [hshape]
      show mutexAtCalls true
          ((findInGroups w.backends a order).2 ++ [Event.unlock, Event.sign b a data]) = _
      rw [mutexAtCalls_calls true _ _ hcalls]
      rfl
    · rw [hshape]
      show replayMutex true
          ((findInGroups w.backends a order).2 ++ [Event.unlock, Event.sign b a data]) = _
      rw [replayMutex_calls true _ _ hcalls]
      rfl

/-- Witness of C13: the address is held by the backend scanned second. -/
theorem C13_backend_Sign_called_after_Unlock_witness :
    (New [listBackend 0 [7] (some [1], none), listBackend 1 [8] (some [2], none)]).lk
      = false ∧
    [0, 1].Perm (New [listBackend 0 [7] (some [1], none),
        listBackend 1 [8] (some [2], none)]).backends.keys ∧
    (New [listBackend 0 [7] (some [1], none),
        listBackend 1 [8] (some [2], none)]).Sign [0, 1] 8 (some [5]) =
      Exec.done (some [2], none)
        (New [listBackend 0 [7] (some [1], none), listBackend 1 [8] (some [2], none)])
        [Event.lock, Event.hasAddress (listBackend 0 [7] (some [1], none)) 8,
          Event.hasAddress (listBackend 1 [8] (some [2], none)) 8, Event.unlock,
          Event.sign (listBackend 1 [8] (some [2], none)) 8 (some [5])] ∧
    ∃ (b : Backend) (mid : List Event),
      (New [listBackend 0 [7] (some [1], none),
          listBackend 1 [8] (some [2], none)]).Sign [0, 1] 8 (some [5]) =
        Exec.done (b.Sign 8 (some [5]))
          (New [listBackend 0 [7] (some [1], none), listBackend 1 [8] (some [2], none)])
          ((Event.lock :: mid ++ [Event.unlock]) ++ [Event.sign b 8 (some [5])]) ∧
      mutexAtCalls false
          ((Event.lock :: mid ++ [Event.unlock]) ++ [Event.sign b 8 (some [5])]) =
        mid.map (fun e => (e, true)) ++ [(Event.sign b 8 (some [5]), false)] :=
  ⟨rfl, by decide, rfl,
    match C13_backend_Sign_called_after_Unlock
      (New [listBackend 0 [7] (some [1], none), listBackend 1 [8] (some [2], none)])
      [0, 1] 8 (some [5]) rfl (by decide)
      ⟨1, by decide, listBackend 1 [8] (some [2], none),
        by simp [New, buildFrom, GoMap.get, GoMap.set, GoMap.getAux, GoMap.setAux,
          listBackend],
        by decide⟩ with
    | ⟨b, mid, _, hsign, _, _, hcalls, _⟩ => ⟨b, mid, hsign, hcalls⟩⟩

/-- C14: when exactly one element `b` of the registered backend list holds `a`,
`Find(a)` returns `b` and `Sign(a, data)` returns what `b.Sign(a, data)` returns, for
every iteration order of the map and for every order in which the same backends are
passed to `New`. -/
theorem C14_unique_holder_resolved_in_any_order (pre post bs' : List Backend)
    (b : Backend) (a : Address) (data : Bytes) (order order' : List Kind)
    (hb : b.HasAddress a = true)
    (hpre : ∀ x ∈ pre, x.HasAddress a = false)
    (hpost : ∀ x ∈ post, x.HasAddress a = false)
    (horder : order.Perm (New (pre ++ b :: post)).backends.keys)
    (hperm : bs'.Perm (pre ++ b :: post))
    (horder' : order'.Perm (New bs').backends.keys) :
    (∃ log,
      (New (pre ++ b :: post)).Find order a =
        Exec.done (some b, none) (New (pre ++ b :: post)) log ∧
      (New (pre ++ b :: post)).Sign order a data =
        Exec.done (b.Sign a data) (New (pre ++ b :: post))
          (log ++ [Event.sign b a data])) ∧
    (∃ log',
      (New bs').Find order' a = Exec.done (some b, none) (New bs') log' ∧
      (New bs').Sign order' a data =
        Exec.done (b.Sign a data) (New bs') (log' ++ [Event.sign b a data])) := by
  have hx := find_New_unique pre post (pre ++ b :: post) b a order hb hpre hpost
    (List.Perm.refl _) horder
  have hx' := find_New_unique pre post bs' b a order' hb hpre hpost hperm horder'
  refine ⟨⟨Event.lock ::
        (findInGroups (New (pre ++ b :: post)).backends a order).2 ++ [Event.unlock],
      ?_, ?_⟩,
    ⟨Event.lock :: (findInGroups (New bs').backends a order').2 ++ [Event.unlock],
      ?_, ?_⟩⟩
  · rw [Find_free (New (pre ++ b :: post)) rfl order a, hx]
    rfl
  · rw [Sign_free (New (pre ++ b :: post)) rfl order a data, hx]
  · rw [Find_free (New bs') rfl order' a, hx']
    rfl
  · rw [Sign_free (New bs') rfl order' a data, hx']

/-- Witness of C14: three backends of two kinds, the holder of address 8 in the middle;
the arguments and the map are then taken in another order. -/
theorem C14_unique_holder_resolved_in_any_order_witness :
    [0, 1].Perm (New ([listBackend 0 [7] (none, none)] ++
        listBackend 1 [8] (some [2], none) :: [listBackend 0 [9] (none, none)])).backends.keys ∧
    [listBackend 1 [8] (some [2], none), listBackend 0 [9] (none, none),
        listBackend 0 [7] (none, none)].Perm
      ([listBackend 0 [7] (none, none)] ++
        listBackend 1 [8] (some [2], none) :: [listBackend 0 [9] (none, none)]) ∧
    [0, 1].Perm (New [listBackend 1 [8] (some [2], none), listBackend 0 [9] (none, none),
        listBackend 0 [7] (none, none)]).backends.keys ∧
    (∃ log,
      (New ([listBackend 0 [7] (none, none)] ++
          listBackend 1 [8] (some [2], none) :: [listBackend 0 [9] (none, none)])).Find
          [0, 1] 8 =
        Exec.done (some (listBackend 1 [8] (some [2], none)), none)
          (New ([listBackend 0 [7] (none, none)] ++
            listBackend 1 [8] (some [2], none) :: [listBackend 0 [9] (none, none)])) log ∧
      (New ([listBackend 0 [7] (none, none)] ++
          listBackend 1 [8] (some [2], none) :: [listBackend 0 [9] (none, none)])).Sign
          [0, 1] 8 (some [5]) =
        Exec.done ((listBackend 1 [8] (some [2], none)).Sign 8 (some [5]))
          (New ([listBackend 0 [7] (none, none)] ++
            listBackend 1 [8] (some [2], none) :: [listBackend 0 [9] (none, none)]))
          (log ++ [Event.sign (listBackend 1 [8] (some [2], none)) 8 (some [5])])) ∧
    (∃ log',
      (New [listBackend 1 [8] (some [2], none), listBackend 0 [9] (none, none),
          listBackend 0 [7] (none, none)]).Find [0, 1] 8 =
        Exec.done (some (listBackend 1 [8] (some [2], none)), none)
          (New [listBackend 1 [8] (some [2], none), listBackend 0 [9] (none, none),
            listBackend 0 [7] (none, none)]) log' ∧
      (New [listBackend 1 [8] (some [2], none), listBackend 0 [9] (none, none),
          listBackend 0 [7] (none, none)]).Sign [0, 1] 8 (some [5]) =
        Exec.done ((listBackend 1 [8] (some [2], none)).Sign 8 (some [5]))
          (New [listBackend 1 [8] (some [2], none), listBackend 0 [9] (none, none),
            listBackend 0 [7] (none, none)])
          (log' ++ [Event.sign (listBackend 1 [8] (some [2], none)) 8 (some [5])])) :=
  have hperm : [listBackend 1 [8] (some [2], none), listBackend 0 [9] (none, none),
      listBackend 0 [7] (none, none)].Perm
      ([listBackend 0 [7] (none, none)] ++
        listBackend 1 [8] (some [2], none) :: [listBackend 0 [9] (none, none)]) :=
    ((List.Perm.swap _ _ _).trans ((List.Perm.swap _ _ _).cons _)).symm
  ⟨by decide, hperm, by decide,
    C14_unique_holder_resolved_in_any_order
      [listBackend 0 [7] (none, none)] [listBackend 0 [9] (none, none)]
      [listBackend 1 [8] (some [2], none), listBackend 0 [9] (none, none),
        listBackend 0 [7] (none, none)]
      (listBackend 1 [8] (some [2], none)) 8 (some [5]) [0, 1] [0, 1] rfl
      (fun x hx => by
        simp only [List.mem_singleton] at hx
        subst hx
        rfl)
      (fun x hx => by
        simp only [List.mem_singleton] at hx
        subst hx
        rfl)
      (by decide) hperm (by decide)⟩

/-- C15: the mapping built by `New(bs...)` is a partition of `bs` by kind.  Its keys
are distinct; every backend stored under a key `k` has kind `k`, the sequence under `k`
being the elements of `bs` of kind `k` in their order; no key maps to an empty sequence;
the groups taken together are a permutation of `bs`, so each element occurs in them as
many times as in `bs`, and the group lengths sum to the length of `bs`. -/
theorem C15_New_partitions_by_kind (bs : List Backend) :
    (New bs).backends.keys.Nodup ∧
    (∀ e ∈ (New bs).backends.entries,
      e.2 = bs.filter (fun b => decide (b.kind = e.1)) ∧
      (∀ b ∈ e.2, b.kind = e.1) ∧
      e.2 ≠ []) ∧
    ((New bs).backends.entries.flatMap Prod.snd).Perm bs ∧
    ((New bs).backends.entries.map (fun e => e.2.length)).sum = bs.length := by
  have hnd := New_keys_nodup bs
  have hentry : ∀ e ∈ (New bs).backends.entries,
      e.2 = bs.filter (fun b => decide (b.kind = e.1)) := by
    intro e he
    rw [← New_get bs e.1]
    exact (getAux_of_mem _ hnd e he).symm
  have hperm : ((New bs).backends.entries.flatMap Prod.snd).Perm bs := by
    rw [flatMap_snd_eq_scan _ hnd]
    exact scanOrder_New_perm bs (New bs).backends.keys (List.Perm.refl _)
  refine ⟨hnd, ?_, hperm, ?_⟩
  · intro e he
    refine ⟨hentry e he, ?_, ?_⟩
    · intro b hb
      rw [hentry e he] at hb
      simpa using (List.mem_filter.mp hb).2
    · have hkey : e.1 ∈ (New bs).backends.keys := List.mem_map_of_mem Prod.fst he
      obtain ⟨b, hb, hk⟩ := (New_mem_keys bs e.1).mp hkey
      have hmem : b ∈ bs.filter (fun b => decide (b.kind = e.1)) :=
        List.mem_filter.mpr ⟨hb, by simpa using hk⟩
      rw [hentry e he]
      exact List.ne_nil_of_mem hmem
  · rw [← length_flatMap_snd, List.Perm.length_eq hperm]

/-- C16: `HasAddress` distributes over concatenation of the argument lists: on
`New(bs ++ cs)` it is the disjunction of its values on `New(bs)` and on `New(cs)`, for any
iteration orders of the three maps.  Hence an address known to `New(bs)` or to `New(cs)`
is known to `New(bs ++ cs)`, and `HasAddress` takes the same value on `New` of any
permutation of `bs`. -/
theorem C16_HasAddress_distributes_over_append (bs cs bs' : List Backend) (a : Address)
    (o o1 o2 o' : List Kind)
    (h : o.Perm (New (bs ++ cs)).backends.keys)
    (h1 : o1.Perm (New bs).backends.keys)
    (h2 : o2.Perm (New cs).backends.keys)
    (hperm : bs'.Perm bs)
    (h' : o'.Perm (New bs').backends.keys) :
    ∃ (v v1 v2 : Bool) (log log1 log2 log' : List Event),
      (New (bs ++ cs)).HasAddress o a = Exec.done v (New (bs ++ cs)) log ∧
      (New bs).HasAddress o1 a = Exec.done v1 (New bs) log1 ∧
      (New cs).HasAddress o2 a = Exec.done v2 (New cs) log2 ∧
      v = (v1 || v2) ∧
      (v1 = true → v = true) ∧
      (v2 = true → v = true) ∧
      (New bs').HasAddress o' a = Exec.done v1 (New bs') log' := by
  refine ⟨_, _, _, _, _, _,
    Event.lock :: (findInGroups (New bs').backends a o').2 ++ [Event.unlock],
    HasAddress_New (bs ++ cs) o a h, HasAddress_New bs o1 a h1,
    HasAddress_New cs o2 a h2, List.any_append, ?_, ?_, ?_⟩
  · intro hv
    rw [List.any_append, hv]
    rfl
  · intro hv
    rw [List.any_append, hv]
    exact Bool.or_true _
  · rw [HasAddress_New bs' o' a h', any_perm _ hperm]

/-- Witness of C16: one backend and then a second of another kind holding the address
asked for; the first list is also taken in reverse. -/
theorem C16_HasAddress_distributes_over_append_witness :
    [1, 0].Perm (New ([listBackend 0 [7] (none, none), listBackend 1 [9] (none, none)] ++
        [listBackend 1 [8] (none, none)])).backends.keys ∧
    [0, 1].Perm (New [listBackend 0 [7] (none, none),
        listBackend 1 [9] (none, none)]).backends.keys ∧
    [1].Perm (New [listBackend 1 [8] (none, none)]).backends.keys ∧
    [listBackend 1 [9] (none, none), listBackend 0 [7] (none, none)].Perm
      [listBackend 0 [7] (none, none), listBackend 1 [9] (none, none)] ∧
    [1, 0].Perm (New [listBackend 1 [9] (none, none),
        listBackend 0 [7] (none, none)]).backends.keys ∧
    ∃ (v v1 v2 : Bool) (log log1 log2 log' : List Event),
      (New ([listBackend 0 [7] (none, none), listBackend 1 [9] (none, none)] ++
          [listBackend 1 [8] (none, none)])).HasAddress [1, 0] 8 =
        Exec.done v
          (New ([listBackend 0 [7] (none, none), listBackend 1 [9] (none, none)] ++
            [listBackend 1 [8] (none, none)])) log ∧
      (New [listBackend 0 [7] (none, none), listBackend 1 [9] (none, none)]).HasAddress
          [0, 1] 8 =
        Exec.done v1
          (New [listBackend 0 [7] (none, none), listBackend 1 [9] (none, none)]) log1 ∧
      (New [listBackend 1 [8] (none, none)]).HasAddress [1] 8 =
        Exec.done v2 (New [listBackend 1 [8] (none, none)]) log2 ∧
      v = (v1 || v2) ∧
      (v1 = true → v = true) ∧
      (v2 = true → v = true) ∧
      (New [listBackend 1 [9] (none, none), listBackend 0 [7] (none, none)]).HasAddress
          [1, 0] 8 =
        Exec.done v1
          (New [listBackend 1 [9] (none, none), listBackend 0 [7] (none, none)]) log' :=
  ⟨by decide, by decide, by decide, List.Perm.swap _ _ _, by decide,
    C16_HasAddress_distributes_over_append
      [listBackend 0 [7] (none, none), listBackend 1 [9] (none, none)]
      [listBackend 1 [8] (none, none)]
      [listBackend 1 [9] (none, none), listBackend 0 [7] (none, none)]
      8 [1, 0] [0, 1] [1] [1, 0] (by decide) (by decide) (by decide)
      (List.Perm.swap _ _ _) (by decide)⟩

/-- C17: whenever `Find(a)` on `New(bs...)` succeeds with a backend `b`, the sequence
returned by `Backends(kind of b)` on the same wallet contains `b`. -/
theorem C17_found_backend_is_in_Backends_of_its_kind (bs : List Backend)
    (order : List Kind) (a : Address) (b : Backend) (w' : Wallet) (log : List Event)
    (hfind : (New bs).Find order a = Exec.done (some b, none) w' log) :
    ∃ (cpy : List (Option Backend)) (log' : List Event),
      (New bs).Backends b.kind = Exec.done cpy (New bs) log' ∧
      some b ∈ cpy ∧
      b ∈ bs := by
  rw [Find_free (New bs) rfl order a] at hfind
  injection hfind with hret _ _
  have hx : ((New bs).scanOrder order).find? (fun x => x.HasAddress a) = some b := by
    rcases hy : ((New bs).scanOrder order).find? (fun x => x.HasAddress a) with _ | y
    · rw [hy] at hret
      simp [findReturn] at hret
    · rw [hy] at hret
      simp only [findReturn, Prod.mk.injEq, and_true] at hret
      rw [hy]
      exact hret
  obtain ⟨k, _, hk⟩ := find_flatMap_some hx
  have hmem := List.mem_of_find?_eq_some hk
  rw [New_get] at hmem
  obtain ⟨hb, hkind⟩ := List.mem_filter.mp hmem
  refine ⟨_, _, Backends_free (New bs) rfl b.kind, ?_, hb⟩
  rw [New_get]
  exact List.mem_map_of_mem some (List.mem_filter.mpr ⟨hb, by simp⟩)

/-- Witness of C17: the backend found for address 8 is the second of its kind. -/
theorem C17_found_backend_is_in_Backends_of_its_kind_witness :
    (New [listBackend 0 [7] (none, none), listBackend 1 [9] (none, none),
        listBackend 0 [8] (none, none)]).Find [1, 0] 8 =
      Exec.done (some (listBackend 0 [8] (none, none)), none)
        (New [listBackend 0 [7] (none, none), listBackend 1 [9] (none, none),
          listBackend 0 [8] (none, none)])
        [Event.lock, Event.hasAddress (listBackend 1 [9] (none, none)) 8,
          Event.hasAddress (listBackend 0 [7] (none, none)) 8,
          Event.hasAddress (listBackend 0 [8] (none, none)) 8, Event.unlock] ∧
    ∃ (cpy : List (Option Backend)) (log' : List Event),
      (New [listBackend 0 [7] (none, none), listBackend 1 [9] (none, none),
          listBackend 0 [8] (none, none)]).Backends (listBackend 0 [8] (none, none)).kind =
        Exec.done cpy
          (New [listBackend 0 [7] (none, none), listBackend 1 [9] (none, none),
            listBackend 0 [8] (none, none)]) log' ∧
      some (listBackend 0 [8] (none, none)) ∈ cpy ∧
      listBackend 0 [8] (none, none) ∈
        [listBackend 0 [7] (none, none), listBackend 1 [9] (none, none),
          listBackend 0 [8] (none, none)] :=
  ⟨rfl,
    C17_found_backend_is_in_Backends_of_its_kind
      [listBackend 0 [7] (none, none), listBackend 1 [9] (none, none),
        listBackend 0 [8] (none, none)]
      [1, 0] 8 (listBackend 0 [8] (none, none)) _ _ rfl⟩

end wallet
